import Mathlib

/-!
Verification development for the gitopolis registry/synchronization engine.

The Rust source is shallowly embedded: registry paths are `String`s with the
component-based semantics of Rust's `std::path::Path` on a Unix platform
(`/` is the separator, `\` is an ordinary character), `BTreeMap`s are
key-sorted association lists, the git backend (a `Box<dyn Git>` trait object)
is a scripted state plus success oracle, and the storage backend is an
`Option` holding the persisted repo list.  Byte-wise string comparison and
ASCII lowercasing are implemented over `List Char` so that every definition
evaluates inside the kernel.
-/

/-! ## Byte-wise string ordering (Rust `Ord for String`) -/

/-- Strict lexicographic order on char lists, mirroring Rust's byte-wise
`Ord for str` (codepoint order and UTF-8 byte order agree). -/
def charListLt : List Char → List Char → Bool
  | [], [] => false
  | [], _ :: _ => true
  | _ :: _, [] => false
  | a :: as, b :: bs => if a < b then true else if b < a then false else charListLt as bs

/-- Non-strict order derived from `charListLt`; for a total order this is
Rust's `cmp(a, b) != Greater`. -/
def charListLe (a b : List Char) : Bool := ! charListLt b a

theorem charListLt_cons_iff (x y : Char) (xs ys : List Char) :
    charListLt (x :: xs) (y :: ys) = true ↔
      x < y ∨ (x = y ∧ charListLt xs ys = true) := by
  simp only [charListLt]
  by_cases hxy : x < y
  · simp [hxy]
  · by_cases hyx : y < x
    · have hne : x ≠ y := fun h => absurd (h ▸ hyx) (lt_irrefl x)
      simp [hxy, hyx, hne]
    · have heq : x = y := le_antisymm (not_lt.mp hyx) (not_lt.mp hxy)
      simp [hxy, hyx, heq]

theorem charListLt_irrefl (l : List Char) : charListLt l l = false := by
  induction l with
  | nil => rfl
  | cons a as ih =>
    rw [← Bool.not_eq_true, charListLt_cons_iff]
    push_neg
    exact ⟨le_refl a, fun _ => by simp [ih]⟩

theorem charListLt_trans {a b c : List Char} (h1 : charListLt a b = true)
    (h2 : charListLt b c = true) : charListLt a c = true := by
  induction a generalizing b c with
  | nil =>
    cases b with
    | nil => exact absurd h1 (by simp [charListLt])
    | cons y ys =>
      cases c with
      | nil => exact absurd h2 (by simp [charListLt])
      | cons z zs => rfl
  | cons x xs ih =>
    cases b with
    | nil => exact absurd h1 (by simp [charListLt])
    | cons y ys =>
      cases c with
      | nil => exact absurd h2 (by simp [charListLt])
      | cons z zs =>
        rw [charListLt_cons_iff] at h1 h2 ⊢
        rcases h1 with h1 | ⟨hxy, r1⟩
        · rcases h2 with h2 | ⟨hyz, r2⟩
          · exact Or.inl (lt_trans h1 h2)
          · exact Or.inl (hyz ▸ h1)
        · rcases h2 with h2 | ⟨hyz, r2⟩
          · exact Or.inl (hxy ▸ h2)
          · exact Or.inr ⟨hxy.trans hyz, ih r1 r2⟩

theorem charListLt_conn {a b : List Char} (h1 : charListLt a b = false)
    (h2 : charListLt b a = false) : a = b := by
  induction a generalizing b with
  | nil =>
    cases b with
    | nil => rfl
    | cons y ys => exact absurd h1 (by simp [charListLt])
  | cons x xs ih =>
    cases b with
    | nil => exact absurd h2 (by simp [charListLt])
    | cons y ys =>
      rw [← Bool.not_eq_true, charListLt_cons_iff] at h1 h2
      push_neg at h1 h2
      have heq : x = y := le_antisymm h2.1 h1.1
      subst heq
      have r1 : charListLt xs ys = false := by
        have := h1.2 rfl
        simpa using this
      have r2 : charListLt ys xs = false := by
        have := h2.2 rfl
        simpa using this
      rw [ih r1 r2]

theorem charListLt_asymm {a b : List Char} (h1 : charListLt a b = true) :
    charListLt b a = false := by
  cases hba : charListLt b a
  · rfl
  · have := charListLt_trans h1 hba
    rw [charListLt_irrefl] at this
    exact absurd this (by simp)

theorem charListLe_total (a b : List Char) :
    charListLe a b = true ∨ charListLe b a = true := by
  unfold charListLe
  cases hba : charListLt b a
  · left; rfl
  · right
    rw [charListLt_asymm hba]
    rfl

theorem charListLe_trans {a b c : List Char} (h1 : charListLe a b = true)
    (h2 : charListLe b c = true) : charListLe a c = true := by
  unfold charListLe at h1 h2 ⊢
  cases hba : charListLt b a with
  | true => rw [hba] at h1; exact absurd h1 (by simp)
  | false =>
  cases hcb : charListLt c b with
  | true => rw [hcb] at h2; exact absurd h2 (by simp)
  | false =>
  cases hca : charListLt c a with
  | false => rfl
  | true =>
    exfalso
    cases hbc : charListLt b c with
    | true =>
      have := charListLt_trans hbc hca
      rw [hba] at this
      exact absurd this (by simp)
    | false =>
      have := charListLt_conn hbc hcb
      subst this
      rw [hca] at hba
      exact absurd hba (by simp)

/-! ## ASCII lowercasing (model of Rust `str::to_lowercase` on ASCII data) -/

/-- ASCII lowercase of a single char; non-ASCII chars are left unchanged,
which agrees with Rust `to_lowercase` on the ASCII inputs the engine sees. -/
def charLower (c : Char) : Char :=
  if 'A' ≤ c ∧ c ≤ 'Z' then Char.ofNat (c.toNat + 32) else c

/-- Case-insensitive byte-wise comparison used by the tag / display-name
sorts (`sort_by_key(to_lowercase)` and `sort_by(name.to_lowercase().cmp)`). -/
def lowerLe (a b : String) : Bool :=
  charListLe (a.data.map charLower) (b.data.map charLower)

/-! ## Unix path model (Rust `std::path::Path` semantics)

Rust `PathBuf` equality, ordering, `ends_with`, `pop` and `file_name` all
work on the path's component list, not its raw text.  On Unix only `/`
separates components; empty components and `.` components are skipped. -/

/-- Split a char list at every `/` (keeping empty chunks, as `splitOn`). -/
def splitSlash : List Char → List (List Char)
  | [] => [[]]
  | c :: cs =>
    if c = '/' then [] :: splitSlash cs
    else match splitSlash cs with
      | g :: gs => (c :: g) :: gs
      | [] => [[c]]

/-- Normal components of a path: chunks between `/`, dropping empty chunks
and `.` chunks exactly as Rust's `Components` iterator does. -/
def pathComps (p : String) : List (List Char) :=
  (splitSlash p.data).filter (fun c => c ≠ [] ∧ c ≠ ['.'])

/-- Whether the path is absolute (starts with the root directory). -/
def isAbsPath (p : String) : Bool :=
  match p.data with
  | '/' :: _ => true
  | _ => false

/-- Full component list; the root directory is represented by the marker
component `['/']`, which can never collide with a normal component. -/
def rcomps (p : String) : List (List Char) :=
  (if isAbsPath p then [['/']] else []) ++ pathComps p

/-- Rust `Path::eq` — component-wise path equality. -/
def pathEq (a b : String) : Bool := decide (rcomps a = rcomps b)

/-- Strict component-wise path order (Rust `Path::cmp` is by components). -/
def compListLt : List (List Char) → List (List Char) → Bool
  | [], [] => false
  | [], _ :: _ => true
  | _ :: _, [] => false
  | a :: as, b :: bs =>
    if charListLt a b then true
    else if charListLt b a then false
    else compListLt as bs

/-- Non-strict component-wise path order. -/
def pathLe (a b : String) : Bool := ! compListLt (rcomps b) (rcomps a)

theorem compListLt_cons_iff (x y : List Char) (xs ys : List (List Char)) :
    compListLt (x :: xs) (y :: ys) = true ↔
      charListLt x y = true ∨ (x = y ∧ compListLt xs ys = true) := by
  simp only [compListLt]
  cases hxy : charListLt x y with
  | true => simp
  | false =>
    cases hyx : charListLt y x with
    | true =>
      have hne : x ≠ y := by
        intro h
        rw [h, charListLt_irrefl] at hyx
        exact absurd hyx (by simp)
      simp [hne]
    | false =>
      have heq : x = y := charListLt_conn hxy hyx
      simp [heq]

theorem compListLt_irrefl (l : List (List Char)) : compListLt l l = false := by
  induction l with
  | nil => rfl
  | cons a as ih =>
    rw [← Bool.not_eq_true, compListLt_cons_iff]
    push_neg
    refine ⟨?_, fun _ => by simp [ih]⟩
    rw [charListLt_irrefl]
    simp

theorem compListLt_trans {a b c : List (List Char)} (h1 : compListLt a b = true)
    (h2 : compListLt b c = true) : compListLt a c = true := by
  induction a generalizing b c with
  | nil =>
    cases b with
    | nil => exact absurd h1 (by simp [compListLt])
    | cons y ys =>
      cases c with
      | nil => exact absurd h2 (by simp [compListLt])
      | cons z zs => rfl
  | cons x xs ih =>
    cases b with
    | nil => exact absurd h1 (by simp [compListLt])
    | cons y ys =>
      cases c with
      | nil => exact absurd h2 (by simp [compListLt])
      | cons z zs =>
        rw [compListLt_cons_iff] at h1 h2 ⊢
        rcases h1 with h1 | ⟨hxy, r1⟩
        · rcases h2 with h2 | ⟨hyz, r2⟩
          · exact Or.inl (charListLt_trans h1 h2)
          · exact Or.inl (hyz ▸ h1)
        · rcases h2 with h2 | ⟨hyz, r2⟩
          · exact Or.inl (hxy ▸ h2)
          · exact Or.inr ⟨hxy.trans hyz, ih r1 r2⟩

theorem compListLt_conn {a b : List (List Char)} (h1 : compListLt a b = false)
    (h2 : compListLt b a = false) : a = b := by
  induction a generalizing b with
  | nil =>
    cases b with
    | nil => rfl
    | cons y ys => exact absurd h1 (by simp [compListLt])
  | cons x xs ih =>
    cases b with
    | nil => exact absurd h2 (by simp [compListLt])
    | cons y ys =>
      rw [← Bool.not_eq_true, compListLt_cons_iff] at h1 h2
      push_neg at h1 h2
      cases hxy : charListLt x y with
      | true => exact absurd hxy h1.1
      | false =>
        cases hyx : charListLt y x with
        | true => exact absurd hyx h2.1
        | false =>
          have heq : x = y := charListLt_conn hxy hyx
          subst heq
          have r1 : compListLt xs ys = false := by
            have := h1.2 rfl
            simpa using this
          have r2 : compListLt ys xs = false := by
            have := h2.2 rfl
            simpa using this
          rw [ih r1 r2]

theorem compListLt_asymm {a b : List (List Char)} (h1 : compListLt a b = true) :
    compListLt b a = false := by
  cases hba : compListLt b a
  · rfl
  · have := compListLt_trans h1 hba
    rw [compListLt_irrefl] at this
    exact absurd this (by simp)

theorem pathLe_total (a b : String) : pathLe a b = true ∨ pathLe b a = true := by
  unfold pathLe
  cases hba : compListLt (rcomps b) (rcomps a)
  · left; rfl
  · right
    rw [compListLt_asymm hba]
    rfl

theorem pathLe_trans {a b c : String} (h1 : pathLe a b = true)
    (h2 : pathLe b c = true) : pathLe a c = true := by
  unfold pathLe at h1 h2 ⊢
  cases hba : compListLt (rcomps b) (rcomps a) with
  | true => rw [hba] at h1; exact absurd h1 (by simp)
  | false =>
  cases hcb : compListLt (rcomps c) (rcomps b) with
  | true => rw [hcb] at h2; exact absurd h2 (by simp)
  | false =>
  cases hca : compListLt (rcomps c) (rcomps a) with
  | false => rfl
  | true =>
    exfalso
    cases hbc : compListLt (rcomps b) (rcomps c) with
    | true =>
      have := compListLt_trans hbc hca
      rw [hba] at this
      exact absurd this (by simp)
    | false =>
      have heq := compListLt_conn hbc hcb
      rw [← heq] at hca
      rw [hca] at hba
      exact absurd hba (by simp)

theorem pathEq_refl (a : String) : pathEq a a = true := by
  simp [pathEq]

theorem pathEq_eq {a b : String} (h : pathEq a b = true) : rcomps a = rcomps b := by
  simpa [pathEq] using h

theorem pathEq_symm {a b : String} (h : pathEq a b = true) : pathEq b a = true := by
  simp [pathEq] at h ⊢
  exact h.symm

theorem pathEq_trans {a b c : String} (h1 : pathEq a b = true)
    (h2 : pathEq b c = true) : pathEq a c = true := by
  simp [pathEq] at h1 h2 ⊢
  exact h1.trans h2

theorem pathEq_of_ne {a b c : String} (h1 : pathEq a c = true)
    (h2 : pathEq b c = false) : pathEq a b = false := by
  cases hab : pathEq a b
  · rfl
  · have := pathEq_trans (pathEq_symm hab) h1
    rw [h2] at this
    exact absurd this (by simp)

/-! ## Path operations used by the engine -/

/-- Rust `Path::ends_with(child)`: the child's component list is a suffix of
the path's component list (whole components only, so a trailing `"\\"` on
Unix is one ordinary component and `"/"` is the bare root directory). -/
def pathEndsWith (p child : String) : Bool :=
  decide ((rcomps p).drop ((rcomps p).length - (rcomps child).length) = rcomps child)

/-- Reassemble a component list into path text (used only to model
`PathBuf::pop`; path comparisons stay component-based). -/
def unparseComps : List (List Char) → String
  | ['/'] :: rest => String.mk ('/' :: (rest.intersperse ['/']).flatten)
  | cs => String.mk ((cs.intersperse ['/']).flatten)

/-- Rust `PathBuf::pop`: truncate to the parent; no-op on the root path and
on the empty path (whose parents are `None`). -/
def popPath (p : String) : String :=
  match rcomps p with
  | [] => p
  | [['/']] => p
  | cs => unparseComps cs.dropLast

/-- `normalize_path` (src/src/gitopolis.rs): after the `String → PathBuf`
refactor the trailing-separator strip became `Path::ends_with("/") ||
Path::ends_with("\\")` followed by `PathBuf::pop`, which is a whole-component
test, not a trailing-character test. -/
def normalize_path (p : String) : String :=
  if pathEndsWith p "/" || pathEndsWith p "\\" then popPath p else p

/-- Rust `Path::file_name`: the last normal component (`None` when there is
none or the path ends in `..`). -/
def fileName? (p : String) : Option (List Char) :=
  match (pathComps p).getLast? with
  | none => none
  | some c => if c = ['.', '.'] then none else some c

/-- Suffix test on char lists (Rust `str::ends_with`). -/
def charEndsWith (l suffix : List Char) : Bool :=
  decide (l.drop (l.length - suffix.length) = suffix)

/-- `GopRepo::get_name_from_path` (src/src/repos.rs): takes `file_name`, then
`filter(|s| !s.is_empty() && s.ends_with(".git"))` — the filter keeps only
names that still carry the `.git` suffix and nothing ever strips it. -/
def get_name_from_path (p : String) : Option String :=
  (fileName? p).bind (fun c =>
    if c ≠ [] ∧ charEndsWith c ".git".data then some (String.mk c) else none)

/-! ## Remote maps (Rust `BTreeMap<String, _>` as key-sorted assoc lists) -/

/-- A repo's remote map: remote name to URL, kept sorted by byte-wise key
order like a `BTreeMap` (the stored `GopRemote` value duplicates its key as
the `name` field, so a `(name, url)` pair carries the same information). -/
abbrev RMap := List (String × String)

/-- `BTreeMap::get`. -/
def rmapLookup (m : RMap) (k : String) : Option String :=
  (m.find? (fun e => e.1 == k)).map (fun e => e.2)

/-- `BTreeMap::contains_key`. -/
def rmapContains (m : RMap) (k : String) : Bool :=
  m.any (fun e => e.1 == k)

/-- `BTreeMap::keys` (ascending). -/
def rmapKeys (m : RMap) : List String := m.map (fun e => e.1)

/-- `BTreeMap::insert`, preserving ascending key order. -/
def rmapInsert : RMap → String → String → RMap
  | [], k, v => [(k, v)]
  | (k', v') :: rest, k, v =>
    if charListLt k.data k'.data then (k, v) :: (k', v') :: rest
    else if k = k' then (k, v) :: rest
    else (k', v') :: rmapInsert rest k v

/-! ## Data model -/

/-- `GopRepo` (src/src/repos.rs): registry key path, derived display name,
tag list and remote map. -/
structure GopRepo where
  path : String
  name : String
  tags : List String
  remotes : RMap
deriving Repr, DecidableEq

/-- `TagFilter`. Modelled from the spec: the tag-filter module is declared
and consumed by the orchestration engine (`use crate::tag_filter::TagFilter`,
`filter.matches(&repo.tags)`) but its source file is absent from src/; per
spec §4.3 a filter is a list of groups, a repo matches when every group
(AND) contains at least one of its tags (OR), and an empty filter matches
every repo. -/
structure TagFilter where
  groups : List (List String)
deriving Repr, DecidableEq

/-- Modelled from the spec (§4.3): AND across groups, OR within a group. -/
def TagFilter.matches (f : TagFilter) (tags : List String) : Bool :=
  f.groups.all (fun g => g.any (fun t => tags.contains t))

/-- `Storage`. Modelled from the spec: the storage module is absent from
src/; per §6 it is load/save of the serialized repo list, with an absent
document equivalent to an empty registry.  Serialization round-trips, so the
state is the repo list itself (or `none` when no document exists). -/
abbrev StorageState := Option (List GopRepo)

/-- `Gitopolis::load`: empty registry when the document does not exist. -/
def load (st : StorageState) : List GopRepo := st.getD []

/-! ## Registry (GopRepos) operations -/

/-- `GopRepos::find_by_name` — first match in registry order. -/
def findByName? (repos : List GopRepo) (n : String) : Option GopRepo :=
  repos.find? (fun r => r.name == n)

/-- `GopRepos::find_by_path` — first match under `Path` equality. -/
def findByPath? (repos : List GopRepo) (p : String) : Option GopRepo :=
  repos.find? (fun r => pathEq r.path p)

/-- In-place mutation of the repo returned by `find_by_name`. -/
def updateFirstByName : List GopRepo → String → (GopRepo → GopRepo) → List GopRepo
  | [], _, _ => []
  | r :: rest, n, f =>
    if r.name == n then f r :: rest else r :: updateFirstByName rest n f

/-- In-place `replace_remotes` on the repo returned by `find_by_path`
(`remotes.clear()` followed by `extend` of the discovered map). -/
def updateFirstByPath : List GopRepo → String → RMap → List GopRepo
  | [], _, _ => []
  | r :: rest, p, rms =>
    if pathEq r.path p then { r with remotes := rms } :: rest
    else r :: updateFirstByPath rest p rms

/-- Sort relation for `repos.sort_by(|a, b| a.path.cmp(&b.path))`. -/
def pathLeP (a b : GopRepo) : Prop := pathLe a.path b.path = true

instance : DecidableRel pathLeP :=
  fun a b => inferInstanceAs (Decidable (pathLe a.path b.path = true))

instance : IsTotal GopRepo pathLeP :=
  ⟨fun x y => pathLe_total x.path y.path⟩

instance : IsTrans GopRepo pathLeP :=
  ⟨fun _ _ _ h1 h2 => pathLe_trans h1 h2⟩

/-- `GopRepos::add`: push then re-sort by path (a stable sort; the stable
insertion sort computes the same list as Rust's stable `sort_by`). -/
def reposAdd (repos : List GopRepo) (repo : GopRepo) : List GopRepo :=
  List.insertionSort pathLeP (repos ++ [repo])

/-- Sort relation for `list`'s display sort
(`a.name.to_lowercase().cmp(&b.name.to_lowercase())`). -/
def nameLeP (a b : GopRepo) : Prop := lowerLe a.name b.name = true

instance : DecidableRel nameLeP :=
  fun a b => inferInstanceAs (Decidable (lowerLe a.name b.name = true))

/-- `Gitopolis::list`: retain repos matching the filter, then sort by
lowercased display name. -/
def listFilter (f : TagFilter) (repos : List GopRepo) : List GopRepo :=
  List.insertionSort nameLeP (repos.filter (fun r => f.matches r.tags))

/-- Sort relation for `tags.sort_by_key(|a| a.to_lowercase())`. -/
def tagLeP (a b : String) : Prop := lowerLe a b = true

instance : DecidableRel tagLeP :=
  fun a b => inferInstanceAs (Decidable (lowerLe a b = true))

instance : IsTotal String tagLeP :=
  ⟨fun _ _ => charListLe_total _ _⟩

instance : IsTrans String tagLeP :=
  ⟨fun _ _ _ h1 h2 => charListLe_trans h1 h2⟩

/-- The `action` closure of `GopRepos::add_tag`: append the tag unless
already present, then re-sort the tag list case-insensitively. -/
def addTagAction (t : String) (r : GopRepo) : GopRepo :=
  if r.tags.any (fun s => s == t) then r
  else { r with tags := List.insertionSort tagLeP (r.tags ++ [t]) }

/-- The `action` closure of `GopRepos::remove_tag`: remove the first
occurrence of the tag, if any. -/
def removeTagAction (t : String) (r : GopRepo) : GopRepo :=
  { r with tags := r.tags.erase t }

/-- `GopError` (src/src/gitopolis.rs). -/
inductive GopErr where
  | git (message : String)
  | state (message : String)
  | remote (message : String) (remote : String)
  | ioErr (message : String)
deriving Repr, DecidableEq

/-- `GopRepos::do_tag`: resolve each name in order (first unresolved name
fails the whole call with a State error), applying the action to the found
repo in place. -/
def doTagLoop (f : GopRepo → GopRepo) : List String → List GopRepo →
    Option GopErr × List GopRepo
  | [], repos => (none, repos)
  | n :: rest, repos =>
    match findByName? repos n with
    | none => (some (GopErr.state ("Repo '" ++ n ++ "' not found")), repos)
    | some _ => doTagLoop f rest (updateFirstByName repos n f)

/-- `GopRepos::add_tag`. -/
def addTagRepos (t : String) (names : List String) (repos : List GopRepo) :
    Option GopErr × List GopRepo :=
  doTagLoop (addTagAction t) names repos

/-- `GopRepos::remove_tag`. -/
def removeTagRepos (t : String) (names : List String) (repos : List GopRepo) :
    Option GopErr × List GopRepo :=
  doTagLoop (removeTagAction t) names repos

/-- `Gitopolis::add_tag`: load, mutate, save — the `?` on `repos.add_tag`
returns before `self.save`, so the persisted registry is untouched on
error. -/
def add_tag_top (st : StorageState) (t : String) (names : List String) :
    Option GopErr × StorageState :=
  match addTagRepos t names (load st) with
  | (some e, _) => (some e, st)
  | (none, repos') => (none, some repos')

/-- `Gitopolis::remove_tag`, same save-only-on-success shape. -/
def remove_tag_top (st : StorageState) (t : String) (names : List String) :
    Option GopErr × StorageState :=
  match removeTagRepos t names (load st) with
  | (some e, _) => (some e, st)
  | (none, repos') => (none, some repos')

/-- `GopRepos::remove_by_names` — per name, drop the first repo whose
*display name* matches; absence is logged and skipped. -/
def removeFirstName (repos : List GopRepo) (n : String) : List GopRepo :=
  match repos.findIdx? (fun r => r.name == n) with
  | some i => repos.eraseIdx i
  | none => repos

/-- Fold of `remove_by_names` over the name list. -/
def remove_by_names : List GopRepo → List String → List GopRepo
  | repos, [] => repos
  | repos, n :: rest => remove_by_names (removeFirstName repos n) rest

/-! ## Git backend model

The engine holds a `Box<dyn Git>`; any implementation of the trait can sit
behind it, so the backend is modelled as a scripted remote configuration
(`GitSt`, path to live remote map) plus a success oracle for the two
mutating calls.  `read_all_remotes` succeeds exactly when the path has a
configuration entry. -/

/-- Live remote configuration: one entry per working copy on disk. -/
abbrev GitSt := List (String × RMap)

/-- Success oracle for the fallible mutating backend calls (`clone` and
`add_remote` both return `Result` in the backend contract, §6). -/
structure GitOracle where
  cloneOk : String → String → Bool
  addRemoteOk : String → String → String → Bool

/-- `read_all_remotes`: the live remote map at a path, `none` when the
repository cannot be opened. -/
def liveLookup (g : GitSt) (p : String) : Option RMap :=
  (g.find? (fun e => pathEq e.1 p)).map (fun e => e.2)

/-- A single live remote binding (URL of remote `n` at path `p`). -/
def liveBinding (g : GitSt) (p n : String) : Option String :=
  (liveLookup g p).bind (fun m => rmapLookup m n)

/-- Effect of a successful `add_remote`: insert the binding into the live
map of the (first `Path`-equal) configuration entry. -/
def gitAddRemote : GitSt → String → String → String → GitSt
  | [], _, _, _ => []
  | (q, m) :: rest, p, n, u =>
    if pathEq q p then (q, rmapInsert m n u) :: rest
    else (q, m) :: gitAddRemote rest p n u

/-- Effect of a successful `clone`: a no-op when the path already exists
(per the backend contract), otherwise a fresh working copy whose only
remote is `origin` bound to the cloned URL. -/
def gitCloneEffect (g : GitSt) (p u : String) : GitSt :=
  if (liveLookup g p).isSome then g else g ++ [(p, [("origin", u)])]

/-- One backend invocation, for call-trace reasoning. -/
inductive GitCall where
  | readAll (path : String)
  | cloneCall (path url : String)
  | addRemote (path name url : String)
deriving Repr, DecidableEq

/-- Outcome of a bulk operation: normal return, `std::process::exit(1)`
after reporting a non-zero error count, or a propagated `Err`. -/
inductive RunResult where
  | ok (n : Nat)
  | exit1 (errorCount : Nat)
  | fail (e : GopErr)
deriving Repr, DecidableEq

/-! ## `Gitopolis::clone` -/

/-- Remote chosen for cloning: prefer `origin`, else the first key in
`BTreeMap` order, else the empty string. -/
def cloneRemoteName (rms : RMap) : String :=
  if rmapContains rms "origin" then "origin"
  else ((rmapKeys rms).head?).getD ""

/-- After a successful clone, add every declared remote other than the one
cloned from; the `?` on `add_remote` propagates the first failure. -/
def addOtherRemotes (o : GitOracle) (p cname : String) :
    List (String × String) → GitSt → Option GopErr × GitSt × List GitCall
  | [], g => (none, g, [])
  | (n, u) :: rest, g =>
    if n = cname then addOtherRemotes o p cname rest g
    else if o.addRemoteOk p n u then
      let res := addOtherRemotes o p cname rest (gitAddRemote g p n u)
      (res.1, res.2.1, GitCall.addRemote p n u :: res.2.2)
    else (some (GopErr.git ("Failed to add remote " ++ n)), g, [GitCall.addRemote p n u])

/-- The `for repo in repos` loop of `Gitopolis::clone`: repos without any
usable remote are skipped, a failed backend clone is counted and the loop
continues, a failed `add_remote` aborts via `?`; after the loop a non-zero
count exits the process. -/
def cloneLoop (o : GitOracle) : List GopRepo → GitSt → Nat →
    RunResult × GitSt × List GitCall
  | [], g, ec => (if ec > 0 then RunResult.exit1 ec else RunResult.ok ec, g, [])
  | repo :: rest, g, ec =>
    match rmapLookup repo.remotes (cloneRemoteName repo.remotes) with
    | none => cloneLoop o rest g ec
    | some u =>
      if o.cloneOk repo.path u then
        match addOtherRemotes o repo.path (cloneRemoteName repo.remotes)
            repo.remotes (gitCloneEffect g repo.path u) with
        | (none, g', tr) =>
          let res := cloneLoop o rest g' ec
          (res.1, res.2.1, GitCall.cloneCall repo.path u :: (tr ++ res.2.2))
        | (some e, g', tr) =>
          (RunResult.fail e, g', GitCall.cloneCall repo.path u :: tr)
      else
        let res := cloneLoop o rest g (ec + 1)
        (res.1, res.2.1, GitCall.cloneCall repo.path u :: res.2.2)

/-- `Gitopolis::clone` over an already-selected repo list. -/
def gitopolis_clone (o : GitOracle) (g : GitSt) (repos : List GopRepo) :
    RunResult × GitSt × List GitCall :=
  cloneLoop o repos g 0

/-! ## `Gitopolis::sync_read_remotes` -/

/-- The sync-read loop: for each selected repo read the live remotes; on
success wholesale-replace the declared remotes of the first path-equal
registry entry, on failure count and continue. -/
def syncReadLoop (g : GitSt) : List GopRepo → List GopRepo → Nat →
    List GopRepo × Nat × List GitCall
  | [], repos, ec => (repos, ec, [])
  | repo :: queue, repos, ec =>
    match liveLookup g repo.path with
    | some rms =>
      let res := syncReadLoop g queue (updateFirstByPath repos repo.path rms) ec
      (res.1, res.2.1, GitCall.readAll repo.path :: res.2.2)
    | none =>
      let res := syncReadLoop g queue repos (ec + 1)
      (res.1, res.2.1, GitCall.readAll repo.path :: res.2.2)

/-- `Gitopolis::sync_read_remotes`: load, iterate the filtered selection,
save whatever succeeded (the save happens before the error-count check),
then exit non-zero when any repo failed. -/
def sync_read_remotes (g : GitSt) (st : StorageState) (f : TagFilter) :
    RunResult × StorageState × List GitCall :=
  let repos := load st
  let res := syncReadLoop g (listFilter f repos) repos 0
  ((if res.2.1 > 0 then RunResult.exit1 res.2.1 else RunResult.ok 0),
    some res.1, res.2.2)

/-! ## `Gitopolis::sync_write_remotes` -/

/-- Add every declared remote whose name is absent from the snapshot
`current` read for this repo; the `?` on `add_remote` propagates the first
failure. -/
def syncWriteAdds (o : GitOracle) (p : String) (current : RMap) :
    List (String × String) → GitSt → Option GopErr × GitSt × List GitCall
  | [], g => (none, g, [])
  | (n, u) :: rest, g =>
    if rmapContains current n then syncWriteAdds o p current rest g
    else if o.addRemoteOk p n u then
      let res := syncWriteAdds o p current rest (gitAddRemote g p n u)
      (res.1, res.2.1, GitCall.addRemote p n u :: res.2.2)
    else (some (GopErr.git ("Failed to add remote " ++ n)), g, [GitCall.addRemote p n u])

/-- The sync-write loop: a failed `read_all_remotes` is counted and skipped
(`continue`), then missing declared remotes are added; after the loop a
non-zero count exits the process. -/
def syncWriteLoop (o : GitOracle) : List GopRepo → GitSt → Nat →
    RunResult × GitSt × List GitCall
  | [], g, ec => (if ec > 0 then RunResult.exit1 ec else RunResult.ok 0, g, [])
  | repo :: rest, g, ec =>
    match liveLookup g repo.path with
    | none =>
      let res := syncWriteLoop o rest g (ec + 1)
      (res.1, res.2.1, GitCall.readAll repo.path :: res.2.2)
    | some current =>
      match syncWriteAdds o repo.path current repo.remotes g with
      | (none, g', tr) =>
        let res := syncWriteLoop o rest g' ec
        (res.1, res.2.1, GitCall.readAll repo.path :: (tr ++ res.2.2))
      | (some e, g', tr) =>
        (RunResult.fail e, g', GitCall.readAll repo.path :: tr)

/-- `Gitopolis::sync_write_remotes`: iterate the filtered selection; the
registry itself is never written (the method takes `&self`). -/
def sync_write_remotes (o : GitOracle) (g : GitSt) (st : StorageState)
    (f : TagFilter) : RunResult × GitSt × List GitCall :=
  syncWriteLoop o (listFilter f (load st)) g 0

/-! ## `Gitopolis::add` and `Gitopolis::move_repo` -/

/-- `GopRepo::new_with_path_and_remotes`: the builder derives the display
name via `get_name_from_path` (a `None` becomes a State error) and stores
the discovered remote map.  The builder leaves `tags` unset; it is modelled
as the empty list (`Vec::default`), the only reading under which the
surrounding code and its tests can run at all. -/
def new_with_path_and_remotes (p : String) (rms : RMap) : Except GopErr GopRepo :=
  match get_name_from_path p with
  | some nm => Except.ok ⟨p, nm, [], rms⟩
  | none => Except.error (GopErr.state "Could not extract name from path")

/-- `Gitopolis::add`: normalize, no-op (without saving) when the path is
already tracked, otherwise read the live remotes, build the repo and insert
it (push + re-sort by path), then save. -/
def gitopolis_add (g : GitSt) (st : StorageState) (p : String) :
    Option GopErr × StorageState :=
  match (load st).findIdx? (fun r => pathEq r.path (normalize_path p)) with
  | some _ => (none, st)
  | none =>
    match liveLookup g (normalize_path p) with
    | none => (some (GopErr.git "Couldn't open git repo"), st)
    | some rms =>
      match new_with_path_and_remotes (normalize_path p) rms with
      | Except.error e => (some e, st)
      | Except.ok repo => (none, some (reposAdd (load st) repo))

/-- Modelled from the spec: `GopRepos::add_with_tags_and_remotes` is called
by `move_repo` but absent from src/; per §4.4 the move "inserts a new
[entry] at the new path carrying over the old tags and remotes", with the
display name defaulting to the final path segment (§3), inserted through
the registry add (push + re-sort by path). -/
def add_with_tags_and_remotes (repos : List GopRepo) (p : String)
    (tags : List String) (rms : RMap) : List GopRepo :=
  reposAdd repos ⟨p, ((fileName? p).map String.mk).getD p, tags, rms⟩

/-- `Gitopolis::move_repo`: normalize both paths, locate the repo by the
old path (State error when absent), rename on the filesystem (the oracle
decides; parent-directory creation has no registry effect and is modelled
as succeeding), then drop the old entry via `remove_by_names` — which
matches *display names* — and insert the new entry. -/
def move_repo (renameOk : String → String → Bool) (st : StorageState)
    (oldPath newPath : String) : Option GopErr × StorageState :=
  let repos := load st
  let nOld := normalize_path oldPath
  let nNew := normalize_path newPath
  match repos.find? (fun r => pathEq r.path nOld) with
  | none => (some (GopErr.state ("Repo '" ++ nOld ++ "' not found")), st)
  | some repo =>
    if renameOk nOld nNew then
      (none, some (add_with_tags_and_remotes (remove_by_names repos [nOld])
        nNew repo.tags repo.remotes))
    else (some (GopErr.ioErr "rename failed"), st)

/-! ## Claim C4 — name derivation -/

/-- C4: the claim says `deriveDirectoryName` extracts the final path segment
and strips a trailing `.git`, e.g. mapping `git@github.com:user/repo.git`
and `https://github.com/user/repo` to `repo`.  The code's
`get_name_from_path` instead *requires* the `.git` suffix (returning `none`
without it) and never strips it, contradicting its own doc-comment examples
and the repo's `test_extract_repo_name_from_url`; this theorem evaluates
the embedded function at the claim's inputs. -/
theorem get_name_from_path_keeps_git_suffix :
    get_name_from_path "git@github.com:user/repo.git" = some "repo.git"
    ∧ get_name_from_path "https://github.com/user/repo" = none
    ∧ get_name_from_path "https://dev.azure.com/org/project/_git/myrepo" = none
    ∧ get_name_from_path "C:\\Users\\test\\repo.git" = some "C:\\Users\\test\\repo.git"
    ∧ get_name_from_path "https://github.com/user/repo.git" = some "repo.git" := by
  decide

/-! ## Claim C7 — path normalization -/

/-- C7: the claim says `normalize` strips trailing separators of both kinds,
so `normalize("bar/") = normalize("bar")` and `normalize("baz\\") =
normalize("baz")`.  After the `String → PathBuf` refactor, `ends_with` is a
whole-component test: the `/` case still holds (component-wise path equality
ignores a trailing `/`), but on Unix a trailing `\` is ordinary text of the
final component, so `"baz\\"` is left untouched and is *not* path-equal to
`"baz"` — contradicting the repo's own `test_normalize_paths`. -/
theorem normalize_path_backslash_not_stripped :
    pathEq (normalize_path "bar/") (normalize_path "bar") = true
    ∧ normalize_path "baz\\" = "baz\\"
    ∧ pathEq (normalize_path "baz\\") (normalize_path "baz") = false := by
  decide

/-! ## Claim C8 — move -/

/-- The registry used by the C8 evaluation: one repo tracked at path
`old/repo` whose display name is the usual final-segment `repo`. -/
def moveDemoRegistry : List GopRepo := [⟨"old/repo", "repo", ["t1"], [("origin", "u")]⟩]

/-- C8: the claim says that after a successful `move(old, new)` the registry
no longer contains an entry at the old path.  `move_repo` removes the old
entry with `remove_by_names(vec![normalized_old])`, which matches *display
names*, so whenever the display name differs from the path string (the
normal case) nothing is removed — contradicting the code's own comment
"remove old entry and add new one" — and the old entry survives next to the
new one. -/
theorem move_repo_leaves_old_entry :
    move_repo (fun _ _ => true) (some moveDemoRegistry) "old/repo" "new/repo" =
      (none, some [⟨"new/repo", "repo", ["t1"], [("origin", "u")]⟩,
                   ⟨"old/repo", "repo", ["t1"], [("origin", "u")]⟩])
    ∧ (findByPath?
        (load (move_repo (fun _ _ => true) (some moveDemoRegistry)
          "old/repo" "new/repo").2) "old/repo").isSome = true := by
  decide

/-! ## Claim C10 — clone skips repos with no remotes -/

theorem cloneLoop_skip_empty (o : GitOracle) (r : GopRepo)
    (hr : r.remotes = ([] : RMap)) :
    ∀ (xs ys : List GopRepo) (g : GitSt) (ec : Nat),
      cloneLoop o (xs ++ r :: ys) g ec = cloneLoop o (xs ++ ys) g ec := by
  intro xs
  induction xs with
  | nil =>
    intro ys g ec
    show cloneLoop o (r :: ys) g ec = cloneLoop o ys g ec
    simp [cloneLoop, hr, cloneRemoteName, rmapContains, rmapKeys, rmapLookup]
  | cons x xs ih =>
    intro ys g ec
    show cloneLoop o (x :: (xs ++ r :: ys)) g ec = cloneLoop o (x :: (xs ++ ys)) g ec
    simp only [cloneLoop]
    cases hl : rmapLookup x.remotes (cloneRemoteName x.remotes) with
    | none => exact ih ys g ec
    | some u =>
      cases hc : o.cloneOk x.path u with
      | false => simp [hc, ih]
      | true =>
        simp only [hc, if_true]
        cases ha : addOtherRemotes o x.path (cloneRemoteName x.remotes) x.remotes
            (gitCloneEffect g x.path u) with
        | mk e rest' =>
          cases e with
          | none => simp [ih]
          | some err => rfl

/-- C10: a selected repo whose declared remote map is empty is silently
skipped by `clone`: deleting it from the work list changes nothing (no
backend call is made for it and the error count is untouched), and a run
over only such repos makes no backend call and reports zero errors. -/
theorem clone_skips_empty_remotes (o : GitOracle) (g : GitSt) :
    (∀ (xs ys : List GopRepo) (r : GopRepo), r.remotes = ([] : RMap) →
      gitopolis_clone o g (xs ++ r :: ys) = gitopolis_clone o g (xs ++ ys))
    ∧ (∀ repos : List GopRepo, (∀ r ∈ repos, r.remotes = ([] : RMap)) →
      gitopolis_clone o g repos = (RunResult.ok 0, g, [])) := by
  constructor
  · intro xs ys r hr
    exact cloneLoop_skip_empty o r hr xs ys g 0
  · intro repos hall
    induction repos with
    | nil => simp [gitopolis_clone, cloneLoop]
    | cons r rest ih =>
      have h1 : gitopolis_clone o g (r :: rest) = gitopolis_clone o g rest := by
        have := cloneLoop_skip_empty o r (hall r (by simp)) [] rest g 0
        simpa [gitopolis_clone] using this
      rw [h1]
      exact ih (fun x hx => hall x (by simp [hx]))

/-- C10 witness: a concrete two-repo run (both with empty remote maps, one
with a tag) makes no backend call and succeeds with error count zero. -/
theorem clone_skips_empty_remotes_witness :
    gitopolis_clone ⟨fun _ _ => true, fun _ _ _ => true⟩ [("x", [("origin", "u")])]
      [⟨"x", "x", [], []⟩, ⟨"y", "y", ["lib"], []⟩] =
      (RunResult.ok 0, [("x", [("origin", "u")])], []) :=
  (clone_skips_empty_remotes ⟨fun _ _ => true, fun _ _ _ => true⟩
    [("x", [("origin", "u")])]).2
    [⟨"x", "x", [], []⟩, ⟨"y", "y", ["lib"], []⟩] (by decide)

/-! ## Registry lemmas for the tag operations -/

theorem any_beq_iff (l : List String) (t : String) :
    (l.any (fun s => s == t)) = true ↔ t ∈ l := by
  rw [List.any_eq_true]
  constructor
  · rintro ⟨x, hx, hbeq⟩
    have : x = t := by simpa using hbeq
    exact this ▸ hx
  · intro ht
    exact ⟨t, ht, by simp⟩

theorem addTagAction_name (t : String) (r : GopRepo) :
    (addTagAction t r).name = r.name := by
  unfold addTagAction
  split
  · rfl
  · rfl

theorem addTagAction_of_mem {t : String} {r : GopRepo} (h : t ∈ r.tags) :
    addTagAction t r = r := by
  unfold addTagAction
  rw [if_pos ((any_beq_iff _ _).mpr h)]

theorem addTagAction_of_not_mem {t : String} {r : GopRepo} (h : t ∉ r.tags) :
    addTagAction t r =
      { r with tags := List.insertionSort tagLeP (r.tags ++ [t]) } := by
  unfold addTagAction
  rw [if_neg (fun hc => h ((any_beq_iff _ _).mp hc))]

theorem findByName?_update_self {repos : List GopRepo} {n : String}
    {f : GopRepo → GopRepo} (hf : ∀ r, (f r).name = r.name) :
    findByName? (updateFirstByName repos n f) n = (findByName? repos n).map f := by
  induction repos with
  | nil => rfl
  | cons r rest ih =>
    by_cases hr : (r.name == n) = true
    · simp [findByName?, updateFirstByName, List.find?, hr, hf r]
    · have hr' : (r.name == n) = false := by simpa using hr
      simp only [updateFirstByName, hr']
      simp only [findByName?, List.find?, hr', hf, Bool.false_eq_true, if_false]
      exact ih

theorem findByName?_update_other {repos : List GopRepo} {n m : String}
    {f : GopRepo → GopRepo} (hf : ∀ r, (f r).name = r.name) :
    (findByName? (updateFirstByName repos n f) m).isSome =
      (findByName? repos m).isSome := by
  induction repos with
  | nil => rfl
  | cons r rest ih =>
    by_cases hr : (r.name == n) = true
    · by_cases hm : (r.name == m) = true
      · simp [findByName?, updateFirstByName, List.find?, hr, hm, hf r]
      · have hm' : (r.name == m) = false := by simpa using hm
        simp [findByName?, updateFirstByName, List.find?, hr, hm', hf r]
    · have hr' : (r.name == n) = false := by simpa using hr
      by_cases hm : (r.name == m) = true
      · simp [findByName?, updateFirstByName, List.find?, hr', hm]
      · have hm' : (r.name == m) = false := by simpa using hm
        simp only [updateFirstByName, hr', Bool.false_eq_true, if_false]
        simp only [findByName?, List.find?, hm', Bool.false_eq_true, if_false]
        exact ih

theorem updateFirstByName_id {repos : List GopRepo} {n : String}
    {f : GopRepo → GopRepo} {x : GopRepo}
    (hx : findByName? repos n = some x) (hfix : f x = x) :
    updateFirstByName repos n f = repos := by
  induction repos with
  | nil => simp [findByName?] at hx
  | cons r rest ih =>
    by_cases hr : (r.name == n) = true
    · have : x = r := by
        simp [findByName?, List.find?, hr] at hx
        exact hx.symm
      subst this
      simp [updateFirstByName, hr, hfix]
    · have hr' : (r.name == n) = false := by simpa using hr
      simp only [findByName?, List.find?, hr', Bool.false_eq_true, if_false] at hx
      simp [updateFirstByName, hr', ih hx]

/-! ## Claim C6 — idempotent tagging -/

/-- C6: on a repo resolvable by name whose tag list carries the tag at most
once (the duplicate-free invariant), one `addTag` leaves exactly one
occurrence of the tag, a second `addTag` returns the state of the first
unchanged (hence identical tag order), and a successful (non-no-op) add
leaves the tag list sorted case-insensitively. -/
theorem add_tag_idempotent (repos : List GopRepo) (name t : String)
    (r₀ : GopRepo) (hfind : findByName? repos name = some r₀)
    (hcount : r₀.tags.count t ≤ 1) :
    (addTagRepos t [name] repos).1 = none
    ∧ addTagRepos t [name] (addTagRepos t [name] repos).2 =
        (none, (addTagRepos t [name] repos).2)
    ∧ ∃ r₁, findByName? (addTagRepos t [name] repos).2 name = some r₁
        ∧ r₁.tags.count t = 1
        ∧ (t ∉ r₀.tags → List.Sorted tagLeP r₁.tags) := by
  have hstep : addTagRepos t [name] repos =
      (none, updateFirstByName repos name (addTagAction t)) := by
    simp [addTagRepos, doTagLoop, hfind]
  have hfound : findByName? (updateFirstByName repos name (addTagAction t)) name =
      some (addTagAction t r₀) := by
    rw [findByName?_update_self (addTagAction_name t), hfind]
    rfl
  have hmem_act : t ∈ (addTagAction t r₀).tags := by
    by_cases hmem : t ∈ r₀.tags
    · rw [addTagAction_of_mem hmem]
      exact hmem
    · rw [addTagAction_of_not_mem hmem]
      have : t ∈ r₀.tags ++ [t] := by simp
      exact ((List.perm_insertionSort tagLeP (r₀.tags ++ [t])).mem_iff).mpr this
  have hfix : addTagAction t (addTagAction t r₀) = addTagAction t r₀ :=
    addTagAction_of_mem hmem_act
  refine ⟨by rw [hstep], ?_, ?_⟩
  · rw [hstep]
    simp only [addTagRepos, doTagLoop, hfound]
    rw [updateFirstByName_id hfound hfix]
  · refine ⟨addTagAction t r₀, by rw [hstep]; exact hfound, ?_, ?_⟩
    · by_cases hmem : t ∈ r₀.tags
      · rw [addTagAction_of_mem hmem]
        have := List.count_pos_iff.mpr hmem
        omega
      · rw [addTagAction_of_not_mem hmem]
        have hperm := List.perm_insertionSort tagLeP (r₀.tags ++ [t])
        show List.count t (List.insertionSort tagLeP (r₀.tags ++ [t])) = 1
        rw [hperm.count_eq t, List.count_append]
        simp [List.count_eq_zero.mpr hmem]
    · intro hno
      rw [addTagAction_of_not_mem hno]
      exact List.sorted_insertionSort tagLeP (r₀.tags ++ [t])

/-- C6 witness: a concrete registry where tagging `r` with `T` twice yields
the singleton occurrence and a fixed point after the first call. -/
theorem add_tag_idempotent_witness :
    (addTagRepos "T" ["r"] [⟨"p", "r", ["b"], []⟩]).1 = none
    ∧ addTagRepos "T" ["r"] (addTagRepos "T" ["r"] [⟨"p", "r", ["b"], []⟩]).2 =
        (none, (addTagRepos "T" ["r"] [⟨"p", "r", ["b"], []⟩]).2)
    ∧ ∃ r₁, findByName? (addTagRepos "T" ["r"] [⟨"p", "r", ["b"], []⟩]).2 "r" = some r₁
        ∧ r₁.tags.count "T" = 1
        ∧ ("T" ∉ (⟨"p", "r", ["b"], []⟩ : GopRepo).tags →
            List.Sorted tagLeP r₁.tags) :=
  add_tag_idempotent [⟨"p", "r", ["b"], []⟩] "r" "T" ⟨"p", "r", ["b"], []⟩
    (by decide) (by decide)

/-! ## Claim C9 — no save on tag errors -/

theorem doTagLoop_fails {f : GopRepo → GopRepo} (hf : ∀ r, (f r).name = r.name) :
    ∀ (names : List String) (repos : List GopRepo),
      (∃ n ∈ names, findByName? repos n = none) →
      (doTagLoop f names repos).1.isSome = true := by
  intro names
  induction names with
  | nil => rintro repos ⟨n, hn, _⟩; exact absurd hn (by simp)
  | cons m rest ih =>
    rintro repos ⟨n, hn, hnone⟩
    cases hm : findByName? repos m with
    | none => simp [doTagLoop, hm]
    | some x =>
      simp only [doTagLoop, hm]
      rcases List.mem_cons.mp hn with rfl | hn'
      · rw [hnone] at hm
        exact absurd hm (by simp)
      · refine ih _ ⟨n, hn', ?_⟩
        have := @findByName?_update_other repos m n f hf
        cases hres : findByName? (updateFirstByName repos m f) n with
        | none => rfl
        | some y =>
          rw [hres, hnone] at this
          exact absurd this (by simp)

/-- C9: when `addTag` or `removeTag` fails because a name in the list is
unresolved, the call returns the error and the persisted registry is
unchanged — `save` sits after the `?`, so in-memory mutations to repos named
earlier in the list are discarded rather than persisted. -/
theorem tag_error_leaves_storage_unchanged (st : StorageState) (t : String)
    (names : List String)
    (h : ∃ n ∈ names, findByName? (load st) n = none) :
    ((add_tag_top st t names).1.isSome = true ∧ (add_tag_top st t names).2 = st)
    ∧ ((remove_tag_top st t names).1.isSome = true
        ∧ (remove_tag_top st t names).2 = st) := by
  have hnameR : ∀ r, (removeTagAction t r).name = r.name := fun _ => rfl
  constructor
  · have hfail := doTagLoop_fails (addTagAction_name t) names (load st) h
    unfold add_tag_top addTagRepos
    cases hres : doTagLoop (addTagAction t) names (load st) with
    | mk e repos' =>
      cases e with
      | none => rw [hres] at hfail; exact absurd hfail (by simp)
      | some err => exact ⟨rfl, rfl⟩
  · have hfail := doTagLoop_fails hnameR names (load st) h
    unfold remove_tag_top removeTagRepos
    cases hres : doTagLoop (removeTagAction t) names (load st) with
    | mk e repos' =>
      cases e with
      | none => rw [hres] at hfail; exact absurd hfail (by simp)
      | some err => exact ⟨rfl, rfl⟩

/-- C9 witness: a two-name batch whose first name resolves (and is mutated
in memory) while the second does not — the call errors and the stored
registry is exactly the original. -/
theorem tag_error_leaves_storage_unchanged_witness :
    ((add_tag_top (some [⟨"p", "r", [], []⟩]) "t" ["r", "zz"]).1.isSome = true
      ∧ (add_tag_top (some [⟨"p", "r", [], []⟩]) "t" ["r", "zz"]).2 =
          some [⟨"p", "r", [], []⟩])
    ∧ ((remove_tag_top (some [⟨"p", "r", [], []⟩]) "t" ["r", "zz"]).1.isSome = true
      ∧ (remove_tag_top (some [⟨"p", "r", [], []⟩]) "t" ["r", "zz"]).2 =
          some [⟨"p", "r", [], []⟩]) :=
  tag_error_leaves_storage_unchanged (some [⟨"p", "r", [], []⟩]) "t" ["r", "zz"]
    (by decide)

/-! ## Claim C5 — registry uniqueness and ordering under add -/

/-- C5: with a duplicate-free registry, `Gitopolis::add` of an
already-tracked normalized path is a complete no-op (nothing is read from
the backend state and nothing is saved), and whenever the call succeeds the
resulting registry is sorted in ascending component-wise path order and
still holds at most one entry per normalized path. -/
theorem registry_add_unique_sorted (g : GitSt) (st : StorageState) (p : String)
    (hnd : (load st).Pairwise (fun a b => pathEq a.path b.path = false)) :
    ((∃ r ∈ load st, pathEq r.path (normalize_path p) = true) →
      gitopolis_add g st p = (none, st))
    ∧ ((∀ r ∈ load st, pathEq r.path (normalize_path p) = false) →
      (gitopolis_add g st p).1 = none →
      List.Sorted pathLeP (load (gitopolis_add g st p).2)
      ∧ (load (gitopolis_add g st p).2).Pairwise
          (fun a b => pathEq a.path b.path = false)) := by
  constructor
  · intro hdup
    have hidx : ((load st).findIdx?
        (fun r => pathEq r.path (normalize_path p))).isSome = true := by
      rw [List.findIdx?_isSome, List.any_eq_true]
      rcases hdup with ⟨r, hr, hp⟩
      exact ⟨r, hr, hp⟩
    unfold gitopolis_add
    cases hcase : (load st).findIdx? (fun r => pathEq r.path (normalize_path p)) with
    | some i => rfl
    | none => rw [hcase] at hidx; exact absurd hidx (by simp)
  · intro habs hok
    have hidx : (load st).findIdx? (fun r => pathEq r.path (normalize_path p)) =
        none := List.findIdx?_eq_none_iff.mpr habs
    cases hlive : liveLookup g (normalize_path p) with
    | none =>
      have hgoal : gitopolis_add g st p =
          (some (GopErr.git "Couldn't open git repo"), st) := by
        unfold gitopolis_add
        rw [hidx, hlive]
      rw [hgoal] at hok
      simp at hok
    | some rms =>
      have hgoal : gitopolis_add g st p =
          (match new_with_path_and_remotes (normalize_path p) rms with
           | Except.error e => (some e, st)
           | Except.ok repo => (none, some (reposAdd (load st) repo))) := by
        unfold gitopolis_add
        rw [hidx, hlive]
      cases hnew : new_with_path_and_remotes (normalize_path p) rms with
      | error e =>
        rw [hnew] at hgoal
        rw [hgoal] at hok
        simp at hok
      | ok repo =>
        rw [hnew] at hgoal
        rw [hgoal]
        have hpath : repo.path = normalize_path p := by
          unfold new_with_path_and_remotes at hnew
          cases hname : get_name_from_path (normalize_path p) with
          | some nm => rw [hname] at hnew; cases hnew; rfl
          | none => rw [hname] at hnew; cases hnew
        constructor
        · exact List.sorted_insertionSort pathLeP (load st ++ [repo])
        · show (List.insertionSort pathLeP (load st ++ [repo])).Pairwise
            (fun a b => pathEq a.path b.path = false)
          have hsymm : ∀ {x y : GopRepo}, pathEq x.path y.path = false →
              pathEq y.path x.path = false := by
            intro x y hxy
            cases hyx : pathEq y.path x.path
            · rfl
            · rw [pathEq_symm hyx] at hxy
              exact hxy
          have hperm := List.perm_insertionSort pathLeP (load st ++ [repo])
          rw [List.Perm.pairwise_iff (fun hxy => hsymm hxy) hperm]
          rw [List.pairwise_append]
          refine ⟨hnd, by simp, ?_⟩
          intro a ha b hb
          have hb' : b = repo := by simpa using hb
          subst hb'
          rw [hpath]
          exact habs a ha

/-- C5 witness: adding path `b.git` to a registry already holding `c.git`
succeeds with a sorted, duplicate-free registry, exercising the
success-and-re-sort conjunct. -/
theorem registry_add_unique_sorted_witness :
    List.Sorted pathLeP (load (gitopolis_add [("b.git", [("origin", "u")])]
      (some [⟨"c.git", "c.git", [], []⟩]) "b.git").2)
    ∧ (load (gitopolis_add [("b.git", [("origin", "u")])]
        (some [⟨"c.git", "c.git", [], []⟩]) "b.git").2).Pairwise
        (fun a b => pathEq a.path b.path = false) :=
  (registry_add_unique_sorted [("b.git", [("origin", "u")])]
    (some [⟨"c.git", "c.git", [], []⟩]) "b.git" (by decide)).2
    (by decide) (by decide)

/-! ## Live-state and registry-update lemmas for synchronization -/

theorem pathEq_false_of_true_false {a p q : String} (hap : pathEq a p = true)
    (hqp : pathEq q p = false) : pathEq a q = false := by
  cases haq : pathEq a q
  · rfl
  · have := pathEq_trans (pathEq_symm haq) hap
    rw [hqp] at this
    exact absurd this (by simp)

theorem liveLookup_congr {g : GitSt} {p q : String} (h : pathEq p q = true) :
    liveLookup g p = liveLookup g q := by
  induction g with
  | nil => rfl
  | cons e rest ih =>
    by_cases he : pathEq e.1 p = true
    · have heq : pathEq e.1 q = true := pathEq_trans he h
      simp [liveLookup, List.find?, he, heq]
    · have he' : pathEq e.1 p = false := by simpa using he
      have heq : pathEq e.1 q = false := by
        cases hq : pathEq e.1 q
        · rfl
        · have := pathEq_trans hq (pathEq_symm h)
          rw [he'] at this
          exact absurd this (by simp)
      simp only [liveLookup, List.find?, he', heq, Bool.false_eq_true, if_false]
      exact ih

theorem updateFirstByPath_hit {repos : List GopRepo} {q p : String} {rms : RMap}
    (hpq : pathEq q p = true) :
    findByPath? (updateFirstByPath repos q rms) p =
      (findByPath? repos p).map (fun r => { r with remotes := rms }) := by
  induction repos with
  | nil => rfl
  | cons r rest ih =>
    by_cases hr : pathEq r.path q = true
    · have hrp : pathEq r.path p = true := pathEq_trans hr hpq
      simp [findByPath?, updateFirstByPath, List.find?, hr, hrp]
    · have hr' : pathEq r.path q = false := by simpa using hr
      have hrp : pathEq r.path p = false := by
        cases hc : pathEq r.path p
        · rfl
        · have := pathEq_trans hc (pathEq_symm hpq)
          rw [hr'] at this
          exact absurd this (by simp)
      simp only [findByPath?, updateFirstByPath, List.find?, hr', hrp,
        Bool.false_eq_true, if_false]
      exact ih

theorem updateFirstByPath_miss {repos : List GopRepo} {q p : String} {rms : RMap}
    (hpq : pathEq q p = false) :
    findByPath? (updateFirstByPath repos q rms) p = findByPath? repos p := by
  induction repos with
  | nil => rfl
  | cons r rest ih =>
    by_cases hr : pathEq r.path q = true
    · have hrp : pathEq r.path p = false := by
        cases hc : pathEq r.path p
        · rfl
        · have := pathEq_trans (pathEq_symm hr) hc
          rw [hpq] at this
          exact absurd this (by simp)
      simp [findByPath?, updateFirstByPath, List.find?, hr, hrp]
    · have hr' : pathEq r.path q = false := by simpa using hr
      by_cases hrp : pathEq r.path p = true
      · simp [findByPath?, updateFirstByPath, List.find?, hr', hrp]
      · have hrp' : pathEq r.path p = false := by simpa using hrp
        simp only [findByPath?, updateFirstByPath, List.find?, hr', hrp',
          Bool.false_eq_true, if_false]
        exact ih

theorem updateFirstByPath_isSome {repos : List GopRepo} {q p : String} {rms : RMap} :
    (findByPath? (updateFirstByPath repos q rms) p).isSome =
      (findByPath? repos p).isSome := by
  by_cases hpq : pathEq q p = true
  · rw [updateFirstByPath_hit hpq]
    cases findByPath? repos p <;> rfl
  · rw [updateFirstByPath_miss (by simpa using hpq)]

/-! ## Claim C1 — sync-read wholesale replacement -/

theorem syncReadLoop_fst_some {g : GitSt} {repo : GopRepo} {queue repos : List GopRepo}
    {ec : Nat} {rms : RMap} (hl : liveLookup g repo.path = some rms) :
    (syncReadLoop g (repo :: queue) repos ec).1 =
      (syncReadLoop g queue (updateFirstByPath repos repo.path rms) ec).1 := by
  simp only [syncReadLoop, hl]

theorem syncReadLoop_fst_none {g : GitSt} {repo : GopRepo} {queue repos : List GopRepo}
    {ec : Nat} (hl : liveLookup g repo.path = none) :
    (syncReadLoop g (repo :: queue) repos ec).1 =
      (syncReadLoop g queue repos (ec + 1)).1 := by
  simp only [syncReadLoop, hl]

theorem syncReadLoop_preserve {g : GitSt} {p : String} {rms : RMap}
    (hlive : liveLookup g p = some rms) :
    ∀ (queue repos : List GopRepo) (ec : Nat),
      (∃ x, findByPath? repos p = some x ∧ x.remotes = rms) →
      ∃ x, findByPath? (syncReadLoop g queue repos ec).1 p = some x
        ∧ x.remotes = rms := by
  intro queue
  induction queue with
  | nil => intro repos ec h; exact h
  | cons repo queue ih =>
    intro repos ec h
    cases hl : liveLookup g repo.path with
    | none =>
      rw [syncReadLoop_fst_none hl]
      exact ih repos (ec + 1) h
    | some rms' =>
      rw [syncReadLoop_fst_some hl]
      apply ih
      by_cases hpq : pathEq repo.path p = true
      · have hsame : liveLookup g repo.path = liveLookup g p := liveLookup_congr hpq
        rw [hl, hlive] at hsame
        have hrms : rms' = rms := by injection hsame
        rcases h with ⟨x, hx, _⟩
        rw [updateFirstByPath_hit hpq, hx]
        exact ⟨_, rfl, hrms⟩
      · rw [updateFirstByPath_miss (by simpa using hpq)]
        exact h

theorem syncReadLoop_establish {g : GitSt} :
    ∀ (queue repos : List GopRepo) (ec : Nat) (r : GopRepo) (rms : RMap),
      r ∈ queue → liveLookup g r.path = some rms →
      (findByPath? repos r.path).isSome = true →
      ∃ x, findByPath? (syncReadLoop g queue repos ec).1 r.path = some x
        ∧ x.remotes = rms := by
  intro queue
  induction queue with
  | nil => intro repos ec r rms hmem _ _; exact absurd hmem (by simp)
  | cons repo queue ih =>
    intro repos ec r rms hmem hlive hsome
    rcases List.mem_cons.mp hmem with rfl | hmem'
    · rw [syncReadLoop_fst_some hlive]
      apply syncReadLoop_preserve hlive
      rcases Option.isSome_iff_exists.mp (by rw [hsome]) with ⟨x, hx⟩
      rw [updateFirstByPath_hit (pathEq_refl r.path), hx]
      exact ⟨_, rfl, rfl⟩
    · cases hl : liveLookup g repo.path with
      | none =>
        rw [syncReadLoop_fst_none hl]
        exact ih repos (ec + 1) r rms hmem' hlive hsome
      | some rms' =>
        rw [syncReadLoop_fst_some hl]
        refine ih _ ec r rms hmem' hlive ?_
        rw [updateFirstByPath_isSome]
        exact hsome

/-- C1: for every repo selected by the filter whose live remote read
succeeds, `sync_read_remotes` replaces that repo's declared remote set
wholesale: in the saved registry the entry found at that path carries
exactly the live remote map (any declared-but-not-live remote, e.g. a
`fork` when the live set is only `origin`, is gone with it). -/
theorem sync_read_replaces_remotes (g : GitSt) (st : StorageState) (f : TagFilter)
    (r : GopRepo) (hSel : r ∈ listFilter f (load st)) (rms : RMap)
    (hlive : liveLookup g r.path = some rms) :
    ∃ x, findByPath? (load (sync_read_remotes g st f).2.1) r.path = some x
      ∧ x.remotes = rms := by
  have hmem : r ∈ load st := by
    have h1 := (List.perm_insertionSort nameLeP
      ((load st).filter (fun x => f.matches x.tags))).mem_iff.mp hSel
    exact (List.mem_filter.mp h1).1
  have hsome : (findByPath? (load st) r.path).isSome = true := by
    rw [findByPath?]
    rw [List.find?_isSome]
    exact ⟨r, hmem, pathEq_refl r.path⟩
  have hload : load (sync_read_remotes g st f).2.1 =
      (syncReadLoop g (listFilter f (load st)) (load st) 0).1 := rfl
  rw [hload]
  exact syncReadLoop_establish (listFilter f (load st)) (load st) 0 r rms hSel
    hlive hsome

/-- C1 witness: a repo declaring `{fork, origin}` whose live set is a single
rebound `origin` ends up declaring exactly that single live remote — the
`fork` remote is dropped. -/
theorem sync_read_replaces_remotes_witness :
    ∃ x, findByPath? (load (sync_read_remotes [("a", [("origin", "u1")])]
      (some [⟨"a", "a", [], [("fork", "uf"), ("origin", "u0")]⟩]) ⟨[]⟩).2.1)
      "a" = some x ∧ x.remotes = [("origin", "u1")] :=
  sync_read_replaces_remotes [("a", [("origin", "u1")])]
    (some [⟨"a", "a", [], [("fork", "uf"), ("origin", "u0")]⟩]) ⟨[]⟩
    ⟨"a", "a", [], [("fork", "uf"), ("origin", "u0")]⟩ (by decide)
    [("origin", "u1")] (by decide)

/-! ## Claim C3 — bulk-failure isolation -/

/-- Number of selected repos whose backend clone call fails (repos with no
usable remote are skipped and never counted). -/
def cloneFailCount (o : GitOracle) (repos : List GopRepo) : Nat :=
  (repos.filter (fun r =>
    match rmapLookup r.remotes (cloneRemoteName r.remotes) with
    | some u => ! o.cloneOk r.path u
    | none => false)).length

/-- Number of selected repos whose `read_all_remotes` call fails. -/
def readFailCount (g : GitSt) (repos : List GopRepo) : Nat :=
  (repos.filter (fun r => (liveLookup g r.path).isNone)).length

theorem addOtherRemotes_none {o : GitOracle} {p cname : String}
    (h1 : ∀ q n u, o.addRemoteOk q n u = true) :
    ∀ (l : List (String × String)) (g : GitSt),
      (addOtherRemotes o p cname l g).1 = none := by
  intro l
  induction l with
  | nil => intro g; rfl
  | cons nu rest ih =>
    intro g
    by_cases hn : nu.1 = cname
    · have hstep : (addOtherRemotes o p cname (nu :: rest) g).1 =
          (addOtherRemotes o p cname rest g).1 := by
        simp [addOtherRemotes, hn]
      rw [hstep]
      exact ih g
    · have hstep : (addOtherRemotes o p cname (nu :: rest) g).1 =
          (addOtherRemotes o p cname rest (gitAddRemote g p nu.1 nu.2)).1 := by
        simp [addOtherRemotes, hn, h1]
      rw [hstep]
      exact ih _

theorem cloneLoop_spec {o : GitOracle}
    (h1 : ∀ q n u, o.addRemoteOk q n u = true) :
    ∀ (repos : List GopRepo) (g : GitSt) (ec : Nat),
      ((cloneLoop o repos g ec).1 =
        (if ec + cloneFailCount o repos > 0
         then RunResult.exit1 (ec + cloneFailCount o repos)
         else RunResult.ok (ec + cloneFailCount o repos)))
      ∧ (∀ r ∈ repos, ∀ u,
          rmapLookup r.remotes (cloneRemoteName r.remotes) = some u →
          GitCall.cloneCall r.path u ∈ (cloneLoop o repos g ec).2.2) := by
  intro repos
  induction repos with
  | nil =>
    intro g ec
    refine ⟨by simp [cloneLoop, cloneFailCount], by simp⟩
  | cons repo rest ih =>
    intro g ec
    cases hu : rmapLookup repo.remotes (cloneRemoteName repo.remotes) with
    | none =>
      have hstep : cloneLoop o (repo :: rest) g ec = cloneLoop o rest g ec := by
        simp only [cloneLoop, hu]
      have hcnt : cloneFailCount o (repo :: rest) = cloneFailCount o rest := by
        simp [cloneFailCount, List.filter, hu]
      rw [hstep, hcnt]
      refine ⟨(ih g ec).1, ?_⟩
      intro r hr u hru
      rcases List.mem_cons.mp hr with rfl | hr'
      · rw [hu] at hru; exact absurd hru (by simp)
      · exact (ih g ec).2 r hr' u hru
    | some u =>
      cases hc : o.cloneOk repo.path u with
      | true =>
        cases ha : addOtherRemotes o repo.path (cloneRemoteName repo.remotes)
            repo.remotes (gitCloneEffect g repo.path u) with
        | mk e gt =>
          have he : e = none := by
            have := @addOtherRemotes_none o repo.path (cloneRemoteName repo.remotes)
              h1 repo.remotes (gitCloneEffect g repo.path u)
            rw [ha] at this
            exact this
          subst he
          have hstep : cloneLoop o (repo :: rest) g ec =
              ((cloneLoop o rest gt.1 ec).1, (cloneLoop o rest gt.1 ec).2.1,
                GitCall.cloneCall repo.path u ::
                  (gt.2 ++ (cloneLoop o rest gt.1 ec).2.2)) := by
            simp [cloneLoop, hu, hc, ha]
          have hcnt : cloneFailCount o (repo :: rest) = cloneFailCount o rest := by
            simp [cloneFailCount, List.filter, hu, hc]
          rw [hstep, hcnt]
          refine ⟨(ih gt.1 ec).1, ?_⟩
          intro r hr u' hru
          rcases List.mem_cons.mp hr with rfl | hr'
          · rw [hu] at hru
            have : u' = u := by injection hru with h; exact h.symm
            subst this
            simp
          · have := (ih gt.1 ec).2 r hr' u' hru
            simp [this]
      | false =>
        have hstep : cloneLoop o (repo :: rest) g ec =
            ((cloneLoop o rest g (ec + 1)).1, (cloneLoop o rest g (ec + 1)).2.1,
              GitCall.cloneCall repo.path u :: (cloneLoop o rest g (ec + 1)).2.2) := by
          simp [cloneLoop, hu, hc]
        have hcnt : cloneFailCount o (repo :: rest) = cloneFailCount o rest + 1 := by
          simp [cloneFailCount, List.filter, hu, hc]
        rw [hstep, hcnt]
        constructor
        · have := (ih g (ec + 1)).1
          rw [this]
          have harith : ec + 1 + cloneFailCount o rest =
              ec + (cloneFailCount o rest + 1) := by omega
          rw [harith]
        · intro r hr u' hru
          rcases List.mem_cons.mp hr with rfl | hr'
          · rw [hu] at hru
            have : u' = u := by injection hru with h; exact h.symm
            subst this
            simp
          · have := (ih g (ec + 1)).2 r hr' u' hru
            simp [this]

theorem syncReadLoop_count {g : GitSt} :
    ∀ (queue repos : List GopRepo) (ec : Nat),
      (syncReadLoop g queue repos ec).2.1 = ec + readFailCount g queue := by
  intro queue
  induction queue with
  | nil => intro repos ec; simp [syncReadLoop, readFailCount]
  | cons repo queue ih =>
    intro repos ec
    cases hl : liveLookup g repo.path with
    | some rms =>
      have hstep : (syncReadLoop g (repo :: queue) repos ec).2.1 =
          (syncReadLoop g queue (updateFirstByPath repos repo.path rms) ec).2.1 := by
        simp only [syncReadLoop, hl]
      rw [hstep, ih]
      simp [readFailCount, List.filter, hl]
    | none =>
      have hstep : (syncReadLoop g (repo :: queue) repos ec).2.1 =
          (syncReadLoop g queue repos (ec + 1)).2.1 := by
        simp only [syncReadLoop, hl]
      rw [hstep, ih]
      have : readFailCount g (repo :: queue) = readFailCount g queue + 1 := by
        simp [readFailCount, List.filter, hl]
      omega

theorem syncReadLoop_traceMem {g : GitSt} :
    ∀ (queue repos : List GopRepo) (ec : Nat), ∀ r ∈ queue,
      GitCall.readAll r.path ∈ (syncReadLoop g queue repos ec).2.2 := by
  intro queue
  induction queue with
  | nil => intro repos ec r hr; exact absurd hr (by simp)
  | cons repo queue ih =>
    intro repos ec r hr
    cases hl : liveLookup g repo.path with
    | some rms =>
      have hstep : (syncReadLoop g (repo :: queue) repos ec).2.2 =
          GitCall.readAll repo.path ::
            (syncReadLoop g queue (updateFirstByPath repos repo.path rms) ec).2.2 := by
        simp only [syncReadLoop, hl]
      rw [hstep]
      rcases List.mem_cons.mp hr with rfl | hr'
      · simp
      · simp [ih _ ec r hr']
    | none =>
      have hstep : (syncReadLoop g (repo :: queue) repos ec).2.2 =
          GitCall.readAll repo.path ::
            (syncReadLoop g queue repos (ec + 1)).2.2 := by
        simp only [syncReadLoop, hl]
      rw [hstep]
      rcases List.mem_cons.mp hr with rfl | hr'
      · simp
      · simp [ih _ (ec + 1) r hr']

theorem gitAddRemote_isSome {q p n u : String} :
    ∀ g : GitSt, (liveLookup (gitAddRemote g p n u) q).isSome =
      (liveLookup g q).isSome := by
  intro g
  induction g with
  | nil => rfl
  | cons e rest ih =>
    by_cases he : pathEq e.1 p = true
    · by_cases hq : pathEq e.1 q = true
      · simp [gitAddRemote, liveLookup, List.find?, he, hq]
      · have hq' : pathEq e.1 q = false := by simpa using hq
        simp [gitAddRemote, liveLookup, List.find?, he, hq']
    · have he' : pathEq e.1 p = false := by simpa using he
      by_cases hq : pathEq e.1 q = true
      · simp [gitAddRemote, liveLookup, List.find?, he', hq]
      · have hq' : pathEq e.1 q = false := by simpa using hq
        simp only [gitAddRemote, he', Bool.false_eq_true, if_false]
        simp only [liveLookup, List.find?, hq', Bool.false_eq_true, if_false]
        exact ih

theorem syncWriteAdds_isSome {o : GitOracle} {p q : String} {current : RMap} :
    ∀ (l : List (String × String)) (g : GitSt),
      (liveLookup (syncWriteAdds o p current l g).2.1 q).isSome =
        (liveLookup g q).isSome := by
  intro l
  induction l with
  | nil => intro g; rfl
  | cons nu rest ih =>
    intro g
    by_cases hcur : rmapContains current nu.1 = true
    · have hstep : (syncWriteAdds o p current (nu :: rest) g).2.1 =
          (syncWriteAdds o p current rest g).2.1 := by
        simp [syncWriteAdds, hcur]
      rw [hstep]
      exact ih g
    · have hcur' : rmapContains current nu.1 = false := by simpa using hcur
      cases hok : o.addRemoteOk p nu.1 nu.2 with
      | true =>
        have hstep : (syncWriteAdds o p current (nu :: rest) g).2.1 =
            (syncWriteAdds o p current rest (gitAddRemote g p nu.1 nu.2)).2.1 := by
          simp [syncWriteAdds, hcur', hok]
        rw [hstep, ih (gitAddRemote g p nu.1 nu.2)]
        exact gitAddRemote_isSome g
      | false =>
        simp [syncWriteAdds, hcur', hok]

theorem syncWriteAdds_none {o : GitOracle} {p : String} {current : RMap}
    (h1 : ∀ q n u, o.addRemoteOk q n u = true) :
    ∀ (l : List (String × String)) (g : GitSt),
      (syncWriteAdds o p current l g).1 = none := by
  intro l
  induction l with
  | nil => intro g; rfl
  | cons nu rest ih =>
    intro g
    by_cases hcur : rmapContains current nu.1 = true
    · simp only [syncWriteAdds, hcur, if_pos rfl]
      exact ih g
    · have hcur' : rmapContains current nu.1 = false := by simpa using hcur
      simp only [syncWriteAdds, hcur', Bool.false_eq_true, if_false, h1, if_pos rfl]
      exact ih _

theorem syncWriteLoop_spec {o : GitOracle}
    (h1 : ∀ q n u, o.addRemoteOk q n u = true) :
    ∀ (queue : List GopRepo) (g : GitSt) (ec : Nat),
      ((syncWriteLoop o queue g ec).1 =
        (if ec + readFailCount g queue > 0
         then RunResult.exit1 (ec + readFailCount g queue)
         else RunResult.ok 0))
      ∧ (∀ r ∈ queue, GitCall.readAll r.path ∈ (syncWriteLoop o queue g ec).2.2) := by
  intro queue
  induction queue with
  | nil =>
    intro g ec
    refine ⟨by simp [syncWriteLoop, readFailCount], by simp⟩
  | cons repo rest ih =>
    intro g ec
    cases hl : liveLookup g repo.path with
    | none =>
      have hstep : syncWriteLoop o (repo :: rest) g ec =
          ((syncWriteLoop o rest g (ec + 1)).1, (syncWriteLoop o rest g (ec + 1)).2.1,
            GitCall.readAll repo.path :: (syncWriteLoop o rest g (ec + 1)).2.2) := by
        simp only [syncWriteLoop, hl]
      have hcnt : readFailCount g (repo :: rest) = readFailCount g rest + 1 := by
        simp [readFailCount, List.filter, hl]
      rw [hstep, hcnt]
      constructor
      · have := (ih g (ec + 1)).1
        rw [this]
        have harith : ec + 1 + readFailCount g rest =
            ec + (readFailCount g rest + 1) := by omega
        rw [harith]
      · intro r hr
        rcases List.mem_cons.mp hr with rfl | hr'
        · simp
        · simp [(ih g (ec + 1)).2 r hr']
    | some current =>
      cases ha : syncWriteAdds o repo.path current repo.remotes g with
      | mk e gt =>
        have he : e = none := by
          have := @syncWriteAdds_none o repo.path current h1 repo.remotes g
          rw [ha] at this
          exact this
        subst he
        have hstep : syncWriteLoop o (repo :: rest) g ec =
            ((syncWriteLoop o rest gt.1 ec).1, (syncWriteLoop o rest gt.1 ec).2.1,
              GitCall.readAll repo.path ::
                (gt.2 ++ (syncWriteLoop o rest gt.1 ec).2.2)) := by
          simp only [syncWriteLoop, hl, ha]
        have hcnt2 : readFailCount gt.1 rest = readFailCount g rest := by
          unfold readFailCount
          have hcong : ∀ x ∈ rest,
              ((liveLookup gt.1 x.path).isNone : Bool) =
                ((liveLookup g x.path).isNone : Bool) := by
            intro x _
            have := @syncWriteAdds_isSome o repo.path x.path current repo.remotes g
            rw [ha] at this
            cases h1' : liveLookup gt.1 x.path <;> cases h2' : liveLookup g x.path <;>
              simp [h1', h2'] at this ⊢
          rw [List.filter_congr hcong]
        have hcnt : readFailCount g (repo :: rest) = readFailCount g rest := by
          simp [readFailCount, List.filter, hl]
        rw [hstep, hcnt]
        constructor
        · have := (ih gt.1 ec).1
          rw [this, hcnt2]
        · intro r hr
          rcases List.mem_cons.mp hr with rfl | hr'
          · simp
          · simp [(ih gt.1 ec).2 r hr']

/-- Backend script for the C3 counterexample: every clone succeeds, but
`add_remote` of `extra` at `p1` fails. -/
def abortDemoOracle : GitOracle :=
  ⟨fun _ _ => true, fun p n _ => !(p == "p1" && n == "extra")⟩

/-- Work list for the C3 counterexample: two repos, the first declaring a
second remote besides `origin`. -/
def abortDemoRepos : List GopRepo :=
  [⟨"p1", "p1", [], [("extra", "ue"), ("origin", "uo")]⟩,
   ⟨"p2", "p2", [], [("origin", "u2")]⟩]

/-- C3 counterexample: the claim says no per-item backend error aborts
processing of the remaining repos and failures are turned into an error
count.  When `add_remote` fails for repo `p1` (after its successful clone),
the `?` propagates the error: the run ends in a propagated failure instead
of an aggregated count, and repo `p2` is never attempted — no clone call for
it appears in the trace. -/
theorem bulk_clone_aborts_on_add_remote_failure :
    gitopolis_clone abortDemoOracle [] abortDemoRepos =
      (RunResult.fail (GopErr.git "Failed to add remote extra"),
       [("p1", [("origin", "uo")])],
       [GitCall.cloneCall "p1" "uo", GitCall.addRemote "p1" "extra" "ue"])
    ∧ GitCall.cloneCall "p2" "u2" ∉
        (gitopolis_clone abortDemoOracle [] abortDemoRepos).2.2 := by
  decide

/-- C3 (amended): provided no `add_remote` call fails, the bulk operations
`clone`, `syncReadRemotes` and `syncWriteRemotes` attempt every item even
when a backend clone or `read_all_remotes` call for an earlier item fails:
the per-item attempt call of every selected repo appears in the trace, and
the operation signals failure exactly when the accumulated error count
after the loop is non-zero (an `add_remote` failure, by contrast, is
propagated by `?` and aborts the remaining items — see the
counterexample). -/
theorem bulk_ops_attempt_all_amended (o : GitOracle) (g : GitSt)
    (st : StorageState) (f : TagFilter) (repos : List GopRepo)
    (h1 : ∀ q n u, o.addRemoteOk q n u = true) :
    ((∀ r ∈ repos, ∀ u,
        rmapLookup r.remotes (cloneRemoteName r.remotes) = some u →
        GitCall.cloneCall r.path u ∈ (gitopolis_clone o g repos).2.2)
      ∧ (gitopolis_clone o g repos).1 =
          (if cloneFailCount o repos > 0
           then RunResult.exit1 (cloneFailCount o repos)
           else RunResult.ok (cloneFailCount o repos)))
    ∧ ((∀ r ∈ listFilter f (load st),
          GitCall.readAll r.path ∈ (sync_read_remotes g st f).2.2)
      ∧ (sync_read_remotes g st f).1 =
          (if readFailCount g (listFilter f (load st)) > 0
           then RunResult.exit1 (readFailCount g (listFilter f (load st)))
           else RunResult.ok 0))
    ∧ ((∀ r ∈ listFilter f (load st),
          GitCall.readAll r.path ∈ (sync_write_remotes o g st f).2.2)
      ∧ (sync_write_remotes o g st f).1 =
          (if readFailCount g (listFilter f (load st)) > 0
           then RunResult.exit1 (readFailCount g (listFilter f (load st)))
           else RunResult.ok 0)) := by
  refine ⟨⟨?_, ?_⟩, ⟨?_, ?_⟩, ⟨?_, ?_⟩⟩
  · intro r hr u hu
    exact (cloneLoop_spec h1 repos g 0).2 r hr u hu
  · have := (cloneLoop_spec h1 repos g 0).1
    simpa [gitopolis_clone] using this
  · intro r hr
    exact syncReadLoop_traceMem (listFilter f (load st)) (load st) 0 r hr
  · show (if (syncReadLoop g (listFilter f (load st)) (load st) 0).2.1 > 0
        then RunResult.exit1
          ((syncReadLoop g (listFilter f (load st)) (load st) 0).2.1)
        else RunResult.ok 0) = _
    rw [syncReadLoop_count]
    simp
  · intro r hr
    exact (syncWriteLoop_spec h1 (listFilter f (load st)) g 0).2 r hr
  · have := (syncWriteLoop_spec h1 (listFilter f (load st)) g 0).1
    simpa [sync_write_remotes] using this

/-- Backend script for the C3 witness: the clone of `r2` fails, everything
else succeeds. -/
def bulkDemoOracle : GitOracle := ⟨fun p _ => !(p == "r2"), fun _ _ _ => true⟩

/-- Work list for the C3 witness: three repos, each with an `origin`. -/
def bulkDemoRepos : List GopRepo :=
  [⟨"r1", "r1", [], [("origin", "u1")]⟩,
   ⟨"r2", "r2", [], [("origin", "u2")]⟩,
   ⟨"r3", "r3", [], [("origin", "u3")]⟩]

/-- C3 witness: three repos where the backend clone fails for the second —
every repo (including the third) gets its clone call, and the run signals
failure with error count one; the sync operations over a registry whose
second repo is unreadable behave analogously. -/
theorem bulk_ops_attempt_all_amended_witness :
    (((∀ r ∈ bulkDemoRepos, ∀ u,
        rmapLookup r.remotes (cloneRemoteName r.remotes) = some u →
        GitCall.cloneCall r.path u ∈
          (gitopolis_clone bulkDemoOracle [("a", [("x", "xu")])] bulkDemoRepos).2.2)
      ∧ (gitopolis_clone bulkDemoOracle [("a", [("x", "xu")])] bulkDemoRepos).1 =
          (if cloneFailCount bulkDemoOracle bulkDemoRepos > 0
           then RunResult.exit1 (cloneFailCount bulkDemoOracle bulkDemoRepos)
           else RunResult.ok (cloneFailCount bulkDemoOracle bulkDemoRepos)))
    ∧ ((∀ r ∈ listFilter ⟨[]⟩ (load (some [⟨"a", "a", [], []⟩, ⟨"b", "b", [], []⟩])),
          GitCall.readAll r.path ∈
            (sync_read_remotes [("a", [("x", "xu")])]
              (some [⟨"a", "a", [], []⟩, ⟨"b", "b", [], []⟩]) ⟨[]⟩).2.2)
      ∧ (sync_read_remotes [("a", [("x", "xu")])]
            (some [⟨"a", "a", [], []⟩, ⟨"b", "b", [], []⟩]) ⟨[]⟩).1 =
          (if readFailCount [("a", [("x", "xu")])]
              (listFilter ⟨[]⟩ (load (some [⟨"a", "a", [], []⟩, ⟨"b", "b", [], []⟩]))) > 0
           then RunResult.exit1 (readFailCount [("a", [("x", "xu")])]
              (listFilter ⟨[]⟩ (load (some [⟨"a", "a", [], []⟩, ⟨"b", "b", [], []⟩]))))
           else RunResult.ok 0))
    ∧ ((∀ r ∈ listFilter ⟨[]⟩ (load (some [⟨"a", "a", [], []⟩, ⟨"b", "b", [], []⟩])),
          GitCall.readAll r.path ∈
            (sync_write_remotes bulkDemoOracle [("a", [("x", "xu")])]
              (some [⟨"a", "a", [], []⟩, ⟨"b", "b", [], []⟩]) ⟨[]⟩).2.2)
      ∧ (sync_write_remotes bulkDemoOracle [("a", [("x", "xu")])]
            (some [⟨"a", "a", [], []⟩, ⟨"b", "b", [], []⟩]) ⟨[]⟩).1 =
          (if readFailCount [("a", [("x", "xu")])]
              (listFilter ⟨[]⟩ (load (some [⟨"a", "a", [], []⟩, ⟨"b", "b", [], []⟩]))) > 0
           then RunResult.exit1 (readFailCount [("a", [("x", "xu")])]
              (listFilter ⟨[]⟩ (load (some [⟨"a", "a", [], []⟩, ⟨"b", "b", [], []⟩]))))
           else RunResult.ok 0)))
    ∧ cloneFailCount bulkDemoOracle bulkDemoRepos = 1 :=
  ⟨bulk_ops_attempt_all_amended bulkDemoOracle [("a", [("x", "xu")])]
    (some [⟨"a", "a", [], []⟩, ⟨"b", "b", [], []⟩]) ⟨[]⟩ bulkDemoRepos
    (fun _ _ _ => rfl), by decide⟩

/-! ## Claim C2 — sync-write is additive -/

theorem rmapContains_of_lookup {mp : RMap} {m u : String}
    (h : rmapLookup mp m = some u) : rmapContains mp m = true := by
  induction mp with
  | nil => simp [rmapLookup] at h
  | cons kv rest ih =>
    by_cases hk : (kv.1 == m) = true
    · simp [rmapContains, hk]
    · have hk' : (kv.1 == m) = false := by simpa using hk
      simp only [rmapLookup, List.find?, hk', Bool.false_eq_true, if_false] at h
      simp only [rmapContains, List.any_cons, hk', Bool.false_or]
      exact ih h

theorem rmapLookup_insert_ne {n u m : String} (h : m ≠ n) :
    ∀ mp : RMap, rmapLookup (rmapInsert mp n u) m = rmapLookup mp m := by
  intro mp
  have hne : (n == m) = false := by
    simp
    exact fun hc => h hc.symm
  induction mp with
  | nil => simp [rmapInsert, rmapLookup, List.find?, hne]
  | cons kv rest ih =>
    by_cases hlt : charListLt n.data kv.1.data = true
    · simp only [rmapInsert, hlt, if_pos rfl]
      simp [rmapLookup, List.find?, hne]
    · have hlt' : charListLt n.data kv.1.data = false := by simpa using hlt
      by_cases heq : n = kv.1
      · subst heq
        simp only [rmapInsert, hlt', Bool.false_eq_true, if_false, if_pos rfl]
        simp [rmapLookup, List.find?, hne]
    
      · simp only [rmapInsert, hlt', Bool.false_eq_true, if_false, if_neg heq]
        by_cases hk : (kv.1 == m) = true
        · simp [rmapLookup, List.find?, hk]
        · have hk' : (kv.1 == m) = false := by simpa using hk
          simp only [rmapLookup, List.find?, hk', Bool.false_eq_true, if_false]
          exact ih

theorem liveBinding_congr {g : GitSt} {p q : String} (h : pathEq p q = true)
    (n : String) : liveBinding g p n = liveBinding g q n := by
  unfold liveBinding
  rw [liveLookup_congr h]

theorem liveBinding_gitAddRemote_ne {p q n m u : String} (g : GitSt)
    (hor : pathEq p q = false ∨ m ≠ n) :
    liveBinding (gitAddRemote g p n u) q m = liveBinding g q m := by
  induction g with
  | nil => rfl
  | cons e rest ih =>
    by_cases hep : pathEq e.1 p = true
    · by_cases heq : pathEq e.1 q = true
      · have hm : m ≠ n := by
          rcases hor with hpq | hmn
          · exfalso
            have hpe := pathEq_trans (pathEq_symm hep) heq
            rw [hpq] at hpe
            exact absurd hpe (by simp)
          · exact hmn
        simp [gitAddRemote, liveBinding, liveLookup, List.find?, hep, heq,
          rmapLookup_insert_ne hm]
      · have heq' : pathEq e.1 q = false := by simpa using heq
        simp [gitAddRemote, liveBinding, liveLookup, List.find?, hep, heq']
    · have hep' : pathEq e.1 p = false := by simpa using hep
      by_cases heq : pathEq e.1 q = true
      · simp [gitAddRemote, liveBinding, liveLookup, List.find?, hep', heq]
      · have heq' : pathEq e.1 q = false := by simpa using heq
        simp only [gitAddRemote, hep', Bool.false_eq_true, if_false]
        simp only [liveBinding, liveLookup, List.find?, heq', Bool.false_eq_true,
          if_false]
        exact ih

theorem syncWriteAdds_preserves {o : GitOracle} {p : String} {current : RMap}
    {g₀ : GitSt}
    (hCur : ∀ m u', liveBinding g₀ p m = some u' → rmapLookup current m = some u') :
    ∀ (l : List (String × String)) (g : GitSt),
      (∀ q m u', liveBinding g₀ q m = some u' → liveBinding g q m = some u') →
      ∀ q m u', liveBinding g₀ q m = some u' →
        liveBinding (syncWriteAdds o p current l g).2.1 q m = some u' := by
  intro l
  induction l with
  | nil => intro g hG q m u' hb; exact hG q m u' hb
  | cons nu rest ih =>
    intro g hG q m u' hb
    by_cases hcur : rmapContains current nu.1 = true
    · have hstep : (syncWriteAdds o p current (nu :: rest) g).2.1 =
          (syncWriteAdds o p current rest g).2.1 := by
        simp [syncWriteAdds, hcur]
      rw [hstep]
      exact ih g hG q m u' hb
    · have hcur' : rmapContains current nu.1 = false := by simpa using hcur
      cases hok : o.addRemoteOk p nu.1 nu.2 with
      | true =>
        have hstep : (syncWriteAdds o p current (nu :: rest) g).2.1 =
            (syncWriteAdds o p current rest (gitAddRemote g p nu.1 nu.2)).2.1 := by
          simp [syncWriteAdds, hcur', hok]
        rw [hstep]
        refine ih _ ?_ q m u' hb
        intro q' m' u'' hb'
        have hgq := hG q' m' u'' hb'
        have hside : pathEq p q' = false ∨ m' ≠ nu.1 := by
          by_cases hpq : pathEq p q' = true
          · right
            intro hmn
            have hb0 : liveBinding g₀ p m' = some u'' := by
              rw [liveBinding_congr hpq m']
              exact hb'
            have hcont := rmapContains_of_lookup (hCur m' u'' hb0)
            rw [hmn] at hcont
            rw [hcont] at hcur'
            exact absurd hcur' (by simp)
          · left
            simpa using hpq
        rw [liveBinding_gitAddRemote_ne g hside]
        exact hgq
      | false =>
        have hstep : (syncWriteAdds o p current (nu :: rest) g).2.1 = g := by
          simp [syncWriteAdds, hcur', hok]
        rw [hstep]
        exact hG q m u' hb

theorem syncWriteLoop_preserves {o : GitOracle} {g₀ : GitSt} :
    ∀ (queue : List GopRepo) (g : GitSt) (ec : Nat),
      (∀ q m u', liveBinding g₀ q m = some u' → liveBinding g q m = some u') →
      ∀ q m u', liveBinding g₀ q m = some u' →
        liveBinding (syncWriteLoop o queue g ec).2.1 q m = some u' := by
  intro queue
  induction queue with
  | nil => intro g ec hG q m u' hb; exact hG q m u' hb
  | cons repo rest ih =>
    intro g ec hG q m u' hb
    cases hl : liveLookup g repo.path with
    | none =>
      have hstep : (syncWriteLoop o (repo :: rest) g ec).2.1 =
          (syncWriteLoop o rest g (ec + 1)).2.1 := by
        simp [syncWriteLoop, hl]
      rw [hstep]
      exact ih g (ec + 1) hG q m u' hb
    | some current =>
      have hCur : ∀ m' u'', liveBinding g₀ repo.path m' = some u'' →
          rmapLookup current m' = some u'' := by
        intro m' u'' hb'
        have := hG repo.path m' u'' hb'
        unfold liveBinding at this
        rw [hl] at this
        simpa using this
      cases ha : syncWriteAdds o repo.path current repo.remotes g with
      | mk e gt =>
        have hpres := @syncWriteAdds_preserves o repo.path current g₀ hCur
          repo.remotes g hG
        rw [ha] at hpres
        cases e with
        | none =>
          have hstep : (syncWriteLoop o (repo :: rest) g ec).2.1 =
              (syncWriteLoop o rest gt.1 ec).2.1 := by
            simp [syncWriteLoop, hl, ha]
          rw [hstep]
          exact ih gt.1 ec (fun q' m' u'' hb' => hpres q' m' u'' hb') q m u' hb
        | some err =>
          have hstep : (syncWriteLoop o (repo :: rest) g ec).2.1 = gt.1 := by
            simp [syncWriteLoop, hl, ha]
          rw [hstep]
          exact hpres q m u' hb

/-- The calls the spec prescribes for sync-write: for each selected repo
whose live read succeeds, one `add_remote` per declared remote missing from
that live set, in declaration order. -/
def syncWriteMissing (g : GitSt) : List GopRepo → List GitCall
  | [] => []
  | r :: rest =>
    (match liveLookup g r.path with
     | some cur => (r.remotes.filter (fun nu => ! rmapContains cur nu.1)).map
         (fun nu => GitCall.addRemote r.path nu.1 nu.2)
     | none => []) ++ syncWriteMissing g rest

/-- Discriminator for `add_remote` calls in a trace. -/
def isAddRemoteCall : GitCall → Bool
  | GitCall.addRemote _ _ _ => true
  | _ => false

theorem syncWriteAdds_trace {o : GitOracle} {p : String} {current : RMap}
    (h1 : ∀ q n u, o.addRemoteOk q n u = true) :
    ∀ (l : List (String × String)) (g : GitSt),
      (syncWriteAdds o p current l g).2.2 =
        (l.filter (fun nu => ! rmapContains current nu.1)).map
          (fun nu => GitCall.addRemote p nu.1 nu.2) := by
  intro l
  induction l with
  | nil => intro g; rfl
  | cons nu rest ih =>
    intro g
    by_cases hcur : rmapContains current nu.1 = true
    · have hstep : (syncWriteAdds o p current (nu :: rest) g).2.2 =
          (syncWriteAdds o p current rest g).2.2 := by
        simp [syncWriteAdds, hcur]
      rw [hstep, ih]
      simp [List.filter, hcur]
    · have hcur' : rmapContains current nu.1 = false := by simpa using hcur
      have hstep : (syncWriteAdds o p current (nu :: rest) g).2.2 =
          GitCall.addRemote p nu.1 nu.2 ::
            (syncWriteAdds o p current rest (gitAddRemote g p nu.1 nu.2)).2.2 := by
        simp [syncWriteAdds, hcur', h1]
      rw [hstep, ih]
      simp [List.filter, hcur']

theorem liveLookup_gitAddRemote_ne {p q n u : String} (g : GitSt)
    (hpq : pathEq p q = false) :
    liveLookup (gitAddRemote g p n u) q = liveLookup g q := by
  induction g with
  | nil => rfl
  | cons e rest ih =>
    by_cases hep : pathEq e.1 p = true
    · have heq : pathEq e.1 q = false := by
        cases hc : pathEq e.1 q
        · rfl
        · have := pathEq_trans (pathEq_symm hep) hc
          rw [hpq] at this
          exact absurd this (by simp)
      simp [gitAddRemote, liveLookup, List.find?, hep, heq]
    · have hep' : pathEq e.1 p = false := by simpa using hep
      by_cases heq : pathEq e.1 q = true
      · simp [gitAddRemote, liveLookup, List.find?, hep', heq]
      · have heq' : pathEq e.1 q = false := by simpa using heq
        simp only [gitAddRemote, hep', Bool.false_eq_true, if_false]
        simp only [liveLookup, List.find?, heq', Bool.false_eq_true, if_false]
        exact ih

theorem syncWriteAdds_lookup_ne {o : GitOracle} {p q : String} {current : RMap}
    (hpq : pathEq p q = false) :
    ∀ (l : List (String × String)) (g : GitSt),
      liveLookup (syncWriteAdds o p current l g).2.1 q = liveLookup g q := by
  intro l
  induction l with
  | nil => intro g; rfl
  | cons nu rest ih =>
    intro g
    by_cases hcur : rmapContains current nu.1 = true
    · have hstep : (syncWriteAdds o p current (nu :: rest) g).2.1 =
          (syncWriteAdds o p current rest g).2.1 := by
        simp [syncWriteAdds, hcur]
      rw [hstep]
      exact ih g
    · have hcur' : rmapContains current nu.1 = false := by simpa using hcur
      cases hok : o.addRemoteOk p nu.1 nu.2 with
      | true =>
        have hstep : (syncWriteAdds o p current (nu :: rest) g).2.1 =
            (syncWriteAdds o p current rest (gitAddRemote g p nu.1 nu.2)).2.1 := by
          simp [syncWriteAdds, hcur', hok]
        rw [hstep, ih (gitAddRemote g p nu.1 nu.2)]
        exact liveLookup_gitAddRemote_ne g hpq
      | false =>
        have hstep : (syncWriteAdds o p current (nu :: rest) g).2.1 = g := by
          simp [syncWriteAdds, hcur', hok]
        rw [hstep]

theorem syncWriteLoop_trace {o : GitOracle} {g₀ : GitSt}
    (h1 : ∀ q n u, o.addRemoteOk q n u = true) :
    ∀ (queue : List GopRepo) (g : GitSt) (ec : Nat),
      queue.Pairwise (fun a b => pathEq a.path b.path = false) →
      (∀ r ∈ queue, liveLookup g r.path = liveLookup g₀ r.path) →
      ((syncWriteLoop o queue g ec).2.2.filter isAddRemoteCall) =
        syncWriteMissing g₀ queue := by
  intro queue
  induction queue with
  | nil => intro g ec _ _; rfl
  | cons repo rest ih =>
    intro g ec hpw hstate
    have hd := (List.pairwise_cons.mp hpw).1
    have hpw' := (List.pairwise_cons.mp hpw).2
    have hhead : liveLookup g repo.path = liveLookup g₀ repo.path :=
      hstate repo (by simp)
    cases hl0 : liveLookup g₀ repo.path with
    | none =>
      have hl : liveLookup g repo.path = none := by rw [hhead, hl0]
      have hstep : (syncWriteLoop o (repo :: rest) g ec).2.2 =
          GitCall.readAll repo.path ::
            (syncWriteLoop o rest g (ec + 1)).2.2 := by
        simp [syncWriteLoop, hl]
      rw [hstep]
      have hrec := ih g (ec + 1) hpw'
        (fun r hr => hstate r (by simp [hr]))
      simp only [List.filter, isAddRemoteCall]
      rw [hrec]
      simp [syncWriteMissing, hl0]
    | some current =>
      have hl : liveLookup g repo.path = some current := by rw [hhead, hl0]
      cases ha : syncWriteAdds o repo.path current repo.remotes g with
      | mk e gt =>
        have he : e = none := by
          have := @syncWriteAdds_none o repo.path current h1 repo.remotes g
          rw [ha] at this
          exact this
        subst he
        have hstep : (syncWriteLoop o (repo :: rest) g ec).2.2 =
            GitCall.readAll repo.path ::
              (gt.2 ++ (syncWriteLoop o rest gt.1 ec).2.2) := by
          simp [syncWriteLoop, hl, ha]
        have htr : gt.2 = (repo.remotes.filter
            (fun nu => ! rmapContains current nu.1)).map
            (fun nu => GitCall.addRemote repo.path nu.1 nu.2) := by
          have := @syncWriteAdds_trace o repo.path current h1 repo.remotes g
          rw [ha] at this
          exact this
        have hstate' : ∀ r ∈ rest, liveLookup gt.1 r.path = liveLookup g₀ r.path := by
          intro r hr
          have hne : pathEq repo.path r.path = false := hd r hr
          have := @syncWriteAdds_lookup_ne o repo.path r.path current hne
            repo.remotes g
          rw [ha] at this
          rw [this]
          exact hstate r (by simp [hr])
        rw [hstep]
        simp only [List.filter, isAddRemoteCall, List.filter_append]
        rw [ih gt.1 ec hpw' hstate', htr]
        have hall : ((repo.remotes.filter
            (fun nu => ! rmapContains current nu.1)).map
            (fun nu => GitCall.addRemote repo.path nu.1 nu.2)).filter
              isAddRemoteCall =
            (repo.remotes.filter (fun nu => ! rmapContains current nu.1)).map
            (fun nu => GitCall.addRemote repo.path nu.1 nu.2) := by
          rw [List.filter_eq_self]
          intro a ha'
          rcases List.mem_map.mp ha' with ⟨nu, _, rfl⟩
          rfl
        rw [hall]
        simp [syncWriteMissing, hl0]

/-- C2 counterexample: the claim, as stated, promises an `add_remote` call
for every declared remote absent from the live set whenever the repo's
`read_all_remotes` succeeded.  With a backend whose `add_remote` fails, the
selected repo `p` reads live set `{}` and declares `{alpha, beta}`, but the
failing call for `alpha` is propagated by `?`: no call for the
still-missing `beta` is ever attempted and the run ends in a propagated
error. -/
theorem sync_write_misses_declared_remote_on_failure :
    (⟨"p", "p", [], [("alpha", "ua"), ("beta", "ub")]⟩ : GopRepo) ∈
      listFilter ⟨[]⟩ (load (some [⟨"p", "p", [], [("alpha", "ua"), ("beta", "ub")]⟩]))
    ∧ liveLookup [("p", [])] "p" = some []
    ∧ rmapContains [] "beta" = false
    ∧ GitCall.addRemote "p" "beta" "ub" ∉
        (sync_write_remotes ⟨fun _ _ => true, fun _ _ _ => false⟩ [("p", [])]
          (some [⟨"p", "p", [], [("alpha", "ua"), ("beta", "ub")]⟩]) ⟨[]⟩).2.2
    ∧ sync_write_remotes ⟨fun _ _ => true, fun _ _ _ => false⟩ [("p", [])]
        (some [⟨"p", "p", [], [("alpha", "ua"), ("beta", "ub")]⟩]) ⟨[]⟩ =
        (RunResult.fail (GopErr.git "Failed to add remote alpha"), [("p", [])],
         [GitCall.readAll "p", GitCall.addRemote "p" "alpha" "ua"]) := by
  decide

/-- C2 (amended): `sync_write_remotes` never removes or modifies a live
remote — every binding of the initial live state survives into the final
live state unconditionally, failures included (in particular an existing
`origin` is never removed); and provided every `add_remote` call succeeds
and the selected repos have pairwise distinct paths (the registry
invariant), the `add_remote` calls in the trace are exactly, in order, the
declared remotes absent from each selected repo's live set. -/
theorem sync_write_additive_amended (o : GitOracle) (g : GitSt)
    (st : StorageState) (f : TagFilter) :
    (∀ p n u, liveBinding g p n = some u →
      liveBinding (sync_write_remotes o g st f).2.1 p n = some u)
    ∧ ((∀ q n u, o.addRemoteOk q n u = true) →
      (listFilter f (load st)).Pairwise (fun a b => pathEq a.path b.path = false) →
      ((sync_write_remotes o g st f).2.2.filter isAddRemoteCall) =
        syncWriteMissing g (listFilter f (load st))) := by
  constructor
  · intro p n u hb
    exact syncWriteLoop_preserves (listFilter f (load st)) g 0
      (fun _ _ _ h => h) p n u hb
  · intro h1 hpw
    exact syncWriteLoop_trace h1 (listFilter f (load st)) g 0 hpw
      (fun _ _ => rfl)

/-- C2 witness: live set `{origin}` with declared `{fork, origin}` — after
the run the `origin` binding is intact and the trace's `add_remote` calls
are exactly the single missing `fork`. -/
theorem sync_write_additive_amended_witness :
    liveBinding (sync_write_remotes ⟨fun _ _ => true, fun _ _ _ => true⟩
      [("a", [("origin", "u")])]
      (some [⟨"a", "a", [], [("fork", "uf"), ("origin", "u")]⟩]) ⟨[]⟩).2.1
      "a" "origin" = some "u"
    ∧ ((sync_write_remotes ⟨fun _ _ => true, fun _ _ _ => true⟩
        [("a", [("origin", "u")])]
        (some [⟨"a", "a", [], [("fork", "uf"), ("origin", "u")]⟩]) ⟨[]⟩).2.2.filter
          isAddRemoteCall) =
        syncWriteMissing [("a", [("origin", "u")])]
          (listFilter ⟨[]⟩
            (load (some [⟨"a", "a", [], [("fork", "uf"), ("origin", "u")]⟩]))) :=
  ⟨(sync_write_additive_amended ⟨fun _ _ => true, fun _ _ _ => true⟩
      [("a", [("origin", "u")])]
      (some [⟨"a", "a", [], [("fork", "uf"), ("origin", "u")]⟩]) ⟨[]⟩).1
      "a" "origin" "u" (by decide),
   (sync_write_additive_amended ⟨fun _ _ => true, fun _ _ _ => true⟩
      [("a", [("origin", "u")])]
      (some [⟨"a", "a", [], [("fork", "uf"), ("origin", "u")]⟩]) ⟨[]⟩).2
      (fun _ _ _ => rfl) (by decide)⟩
